import Mathlib

/-!
# Verification of the `substr` Boyer–Moore search package

Shallow embedding of the Go package `substr` (Boyer–Moore substring search
with an in-memory variant and a windowed streaming variant), together with
proofs and refutations of the specification's claims.

Bytes are modelled as `Nat` (values < 256 in practice; the tables are total
functions so no bound is needed).  Go's `uint32` arithmetic is modelled with
explicit `% 2^32` arithmetic (`uadd`, `usub`).  Loops are modelled with
explicit fuel because the Go loops can fail to terminate when `uint32`
wraparound occurs; every theorem about in-range inputs shows the canonical
fuel is sufficient.
-/

namespace Substr

/-- `2^32`, the modulus of Go's `uint32` arithmetic. -/
def U32 : Nat := 4294967296

/-- Go constant `errorOffset = math.MaxUint32`, the in-band not-found sentinel. -/
def errorOffset : Nat := U32 - 1

/-- Go constant `buffSize = 4 * 1024`, the streaming window capacity. -/
def buffSize : Nat := 4096

/-- `uint32` addition. -/
def uadd (a b : Nat) : Nat := (a + b) % U32

/-- `uint32` subtraction (two's complement wraparound for `a, b < 2^32`):
the subtrahend's complement is added, keeping the large constant on the left
so that symbolic kernel reduction stays shallow. -/
def usub (a b : Nat) : Nat := ((U32 - b % U32) + a) % U32

/-- Model of Go's `makeCharTable`: the bad-character jump table, a total
function standing for the `[256]uint32` array.  Every entry defaults to the
needle length; then positions `0 .. len-2` are scanned left to right and the
entry for `needle[i]` is set to `len-1-i` (later writes win). -/
def makeCharTable (needle : List Nat) : Nat → Nat :=
  (List.range (needle.length - 1)).foldl
    (fun t i => Function.update t (needle.getD i 0) ((needle.length - 1 - i) % U32))
    (fun _ => needle.length % U32)

/-- Helper for `isPrefixAt`: compares `needle[i+k]` with `needle[j+k]` for
`k < n`, mirroring the comparison loop of Go's `isPrefix`. -/
def isPrefixAux (needle : List Nat) : Nat → Nat → Nat → Bool
  | _, _, 0 => true
  | i, j, n+1 =>
    needle.getD i 0 == needle.getD j 0 && isPrefixAux needle (i+1) (j+1) n

/-- Model of Go's `isPrefix`: is `needle[p:]` a prefix of `needle`?
(The Go function is spelled `isPrefix`; the `At` suffix only avoids a name
clash with the list API.) -/
def isPrefixAt (needle : List Nat) (p : Nat) : Bool :=
  isPrefixAux needle p 0 (needle.length - p)

/-- Helper for `suffixLength`: counts matching byte pairs walking left from
`i` and `j` simultaneously, stopping at a mismatch or when `i` walks off the
front (Go's `i >= 0` test). -/
def suffixLengthAux (needle : List Nat) : Nat → Nat → Nat
  | 0, j => if needle.getD 0 0 == needle.getD j 0 then 1 else 0
  | i+1, j =>
    if needle.getD (i+1) 0 == needle.getD j 0 then
      1 + suffixLengthAux needle i (j-1)
    else 0

/-- Model of Go's `suffixLength`: the maximum length of the substring of
`needle` that ends at position `p` and is also a suffix of `needle`. -/
def suffixLength (needle : List Nat) (p : Nat) : Nat :=
  suffixLengthAux needle p (needle.length - 1)

/-- Pass 1 of Go's `makeOffsetTable`, iterating `i` from `needle.length-1`
down to `0` threading `lastPrefixPosition` (`lpp`).  The entry written at
iteration `i` lands at table index `length-1-i`, so iterating `i` downward
produces the table entries in ascending index order, which is how the
resulting list is assembled here. -/
def offsetPass1 (needle : List Nat) : Nat → Nat → List Nat
  | lpp, 0 =>
    let lpp' := if isPrefixAt needle 1 then 1 else lpp
    [(lpp' - 0 + needle.length - 1) % U32]
  | lpp, i+1 =>
    let lpp' := if isPrefixAt needle (i+2) then i + 2 else lpp
    ((lpp' - (i+1) + needle.length - 1) % U32) :: offsetPass1 needle lpp' i

/-- Model of Go's `makeOffsetTable`: pass 1 (prefix rule) builds the table,
pass 2 (suffix rule) overwrites entry `suffixLength(i)` for each
`i < length-1`. -/
def makeOffsetTable (needle : List Nat) : List Nat :=
  let L := needle.length
  let t1 := if L = 0 then [] else offsetPass1 needle L (L - 1)
  (List.range (L - 1)).foldl
    (fun t i => t.set (suffixLength needle i) ((L - 1 - i + suffixLength needle i) % U32))
    t1

/-- Model of Go's `Needle` struct: the raw pattern plus its two jump tables. -/
structure Needle where
  bytes : List Nat
  length : Nat
  charTable : Nat → Nat
  offsetTable : List Nat

/-- Model of Go's `NewNeedleBytes`. -/
def NewNeedleBytes (needle : List Nat) : Needle :=
  { bytes := needle
    length := needle.length % U32
    charTable := makeCharTable needle
    offsetTable := makeOffsetTable needle }

/-- Result of the right-to-left comparison loop inside `indexOfHelper`:
either a full match was found at `pos`, or the first mismatch happened at
haystack position `i` against needle position `j`. -/
inductive ScanRes where
  | found (pos : Nat)
  | mismatch (i j : Nat)
deriving DecidableEq, Repr

/-- The inner loop of Go's `indexOfHelper`: starting from haystack index `i`
and needle index `j`, walk both indices left while the bytes agree; report
`found i` when `j` reaches `0` on agreement, `mismatch i j` otherwise. -/
def scanBack (haystack : List Nat) (needle : Needle) : Nat → Nat → ScanRes
  | i, 0 =>
    if needle.bytes.getD 0 0 == haystack.getD i 0 then .found i
    else .mismatch i 0
  | i, j+1 =>
    if needle.bytes.getD (j+1) 0 == haystack.getD i 0 then
      scanBack haystack needle (i-1) j
    else .mismatch i (j+1)

/-- Fueled model of the outer loop of Go's `indexOfHelper`.  `none` means the
fuel ran out: the Go loop genuinely fails to terminate for some inputs where
`uint32` wraparound occurs, so a fuel bound is the honest embedding; all
theorems about in-range inputs show the canonical fuel is sufficient. -/
def indexOfLoopF (haystack : List Nat) (needle : Needle) (haystackLen : Nat) :
    Nat → Nat → Option Nat
  | 0, _ => none
  | fuel+1, i =>
    if i < haystackLen then
      match scanBack haystack needle i (usub needle.length 1) with
      | .found pos => some pos
      | .mismatch i' j =>
        indexOfLoopF haystack needle haystackLen fuel
          (uadd i' (max (needle.offsetTable.getD (usub (usub needle.length 1) j) 0)
                        (needle.charTable (haystack.getD i' 0))))
    else some errorOffset

/-- Model of Go's `indexOfHelper`: next match of `needle` in
`haystack[0:haystackLen]` at or after `haystackSkip`, or `errorOffset`. -/
def indexOfHelper (haystack : List Nat) (needle : Needle)
    (haystackLen haystackSkip : Nat) : Nat :=
  (indexOfLoopF haystack needle haystackLen (haystackLen + 1)
      (uadd (usub needle.length 1) haystackSkip)).getD errorOffset

/-- The only error value the package defines: `ErrEmptyNeedle`. -/
inductive GoErr where
  | emptyNeedle
deriving DecidableEq, Repr

/-- Model of Go's `Result` struct. -/
structure GoResult where
  Offset : Nat
  Error : Option GoErr
deriving DecidableEq, Repr

/-- Fueled model of the match-emitting loop in Go's `IndexesOf`: repeatedly
call `indexOfHelper`, stop on `errorOffset`, otherwise emit the match and
resume one past it. -/
def indexesOfLoopF (haystack : List Nat) (needle : Needle) (haystackLen : Nat) :
    Nat → Nat → List GoResult
  | 0, _ => []
  | fuel+1, skip =>
    let index := indexOfHelper haystack needle haystackLen skip
    if index = errorOffset then []
    else ⟨index, none⟩ :: indexesOfLoopF haystack needle haystackLen fuel (uadd index 1)

/-- Model of Go's `IndexesOf`: the full sequence of results sent on the
output channel.  Note the Go code does not `return` after sending
`ErrEmptyNeedle`, so the scanning loop runs even then (it finds nothing
because the initial scan index underflows to `2^32-1`). -/
def IndexesOf (haystack needleBytes : List Nat) : List GoResult :=
  let needle := NewNeedleBytes needleBytes
  let haystackLen := haystack.length % U32
  (if needle.length = 0 then [⟨errorOffset, some .emptyNeedle⟩] else []) ++
    indexesOfLoopF haystack needle haystackLen (haystackLen + 1) 0

/-- Model of Go's `IndexOf` (the one-shot in-memory entry point): the
sequence of results sent on its channel before `close`. -/
def IndexOfResults (haystack needleBytes : List Nat) : List GoResult :=
  let needle := NewNeedleBytes needleBytes
  let haystackLen := haystack.length % U32
  (if needle.length = 0 then [⟨errorOffset, some .emptyNeedle⟩] else []) ++
    (let index := indexOfHelper haystack needle haystackLen 0
     if index = errorOffset then [] else [⟨index, none⟩])

/-! ## Streaming engine -/

/-- The byte-stream reader: remaining `data` (with its length `dataLen`
tracked alongside, as a real reader knows how much it has left), plus a
schedule of chunk sizes capping successive reads (modelling a reader that
delivers the stream in chunks of chosen sizes; an exhausted schedule
delivers as much as fits). -/
structure GoReader where
  data : List Nat
  dataLen : Nat
  sched : List Nat
deriving DecidableEq, Repr

/-- A reader is well-formed when its recorded length is its data's length. -/
def GoReader.WF (r : GoReader) : Prop := r.dataLen = r.data.length

/-- Outcome of one read call: the chunk delivered, its byte count, the
advanced reader, and whether `io.EOF` was returned. -/
structure ReadRes where
  chunk : List Nat
  count : Nat
  rest : GoReader
  isEOF : Bool

/-- One `Read(buffer[used:])` call with `cap` bytes of space.  Mirrors
`bytes.Reader`: end of data reports EOF; otherwise up to
`min (schedule head) cap` bytes are delivered (0 bytes with a nil error when
`cap = 0`, as `bytes.Reader` does). -/
def readChunk (r : GoReader) (cap : Nat) : ReadRes :=
  if r.dataLen = 0 then ⟨[], 0, r, true⟩
  else
    let want := match r.sched with
      | [] => cap
      | s :: _ => min s cap
    let n := min want r.dataLen
    ⟨r.data.take n, n, ⟨r.data.drop n, r.dataLen - n, r.sched.tail⟩, false⟩

/-- Observable events of one run of the streaming goroutine:  results sent
on the channel, channel closes (a second `close` is a Go runtime panic), read
calls (with the byte count delivered), and the slice-bounds panic that the
carryover step hits when the needle is longer than `buffSize + 1`. -/
inductive Event where
  | emit (r : GoResult)
  | close
  | readCall (count : Nat)
  | panicSlice
deriving DecidableEq, Repr

/-- Fueled model of the inner scan loop of `indexesWithinReaderHelp` (the
`stopAtFirst = false` path): emit `offset + index` for every match in
`window[0:used]`. -/
def scanEmitsF (window : List Nat) (needle : Needle) (used offset : Nat) :
    Nat → Nat → List GoResult
  | 0, _ => []
  | fuel+1, skip =>
    let index := indexOfHelper window needle used skip
    if index = errorOffset then []
    else ⟨uadd offset index, none⟩ ::
      scanEmitsF window needle used offset fuel (uadd index 1)

/-- Fueled model of the outer loop of Go's `indexesWithinReaderHelp` (find-all
mode).  The window is the list of currently valid buffer bytes (`used` is its
length); `offset` is the absolute base.  Each iteration performs one read and
follows the Go control flow: accumulate while not full, scan when full or at
EOF, emit `Result{errorOffset, err}` and stop on a non-EOF zero read, carry
over and continue when the stream has not ended. -/
def streamLoopF (needle : Needle) : Nat → GoReader → List Nat → Nat → Nat → List Event
  | 0, _, _, _, _ => []
  | fuel+1, r, window, used, offset =>
    let res := readChunk r (buffSize - used)
    Event.readCall res.count ::
      (if 0 < res.count ∧ used + res.count < buffSize then
        streamLoopF needle fuel res.rest (window ++ res.chunk) (used + res.count) offset
      else if 0 < res.count ∨ res.isEOF then
        let w := window ++ res.chunk
        let u := used + res.count
        let emits := scanEmitsF w needle u offset (u + 1) 0
        emits.map Event.emit ++
          (if res.isEOF then [Event.close]
           else
            let lo := uadd (usub u needle.length) 1
            if u < lo then [Event.panicSlice]
            else
              streamLoopF needle fuel res.rest (w.drop lo) (usub needle.length 1)
                (uadd offset (usub (usub u needle.length) 1)))
      else [Event.emit ⟨errorOffset, none⟩, Event.close])

/-- Model of Go's `indexesWithinReaderHelp` with `stopAtFirst = false`: the
whole observable event trace of the goroutine.  The Go code does not `return`
after the empty-needle `close(out)`, so the read loop still runs afterwards
(ending in a second `close`, a runtime panic). -/
def indexesWithinReaderHelp (r : GoReader) (needle : Needle) : List Event :=
  (if needle.length = 0 then [.emit ⟨errorOffset, some .emptyNeedle⟩, .close] else []) ++
    streamLoopF needle (r.dataLen + 2) r [] 0 0

/-- Model of Go's `IndexesWithinReaderNeedle`. -/
def IndexesWithinReaderNeedle (r : GoReader) (needle : Needle) : List Event :=
  indexesWithinReaderHelp r needle

/-- Model of Go's `IndexesWithinReaderBytes`. -/
def IndexesWithinReaderBytes (r : GoReader) (needleBytes : List Nat) : List Event :=
  IndexesWithinReaderNeedle r (NewNeedleBytes needleBytes)

/-- The results sent on the channel during a streaming run (the consumer's
view of an event trace). -/
def emittedResults (events : List Event) : List GoResult :=
  events.filterMap fun e =>
    match e with
    | .emit r => some r
    | _ => none

/-- Number of read calls in an event trace. -/
def readCount (events : List Event) : Nat :=
  events.countP fun e =>
    match e with
    | .readCall _ => true
    | _ => false

/-- Number of channel closes in an event trace (2 means Go panics). -/
def closeCount (events : List Event) : Nat :=
  events.countP fun e =>
    match e with
    | .close => true
    | _ => false

/-! ## Specification-side (naive) definitions -/

/-- `P` occurs in `H` at offset `p` (boolean form): `H[p : p+|P|] = P`. -/
def matchAtB (H P : List Nat) (p : Nat) : Bool :=
  decide (p + P.length ≤ H.length) &&
    (List.range P.length).all fun k => H.getD (p+k) 0 == P.getD k 0

/-- All offsets at which `P` occurs in `H`, in ascending order (the
specification's description of find-all). -/
def naiveMatches (H P : List Nat) : List Nat :=
  (List.range (H.length + 1)).filter (matchAtB H P)

/-- All offsets `≥ start` at which `P` occurs in `H`, ascending. -/
def naiveMatchesFrom (H P : List Nat) (start : Nat) : List Nat :=
  (List.range' start (H.length + 1 - start)).filter (matchAtB H P)

/-- Fueled naive first-match search: the least `p ≥ start` with
`H[p : p+|P|] = P`. -/
def firstMatchFromF (H P : List Nat) : Nat → Nat → Option Nat
  | 0, _ => none
  | fuel+1, start =>
    if H.length < start + P.length then none
    else if matchAtB H P start then some start
    else firstMatchFromF H P fuel (start+1)

/-- The least offset `≥ start` at which `P` occurs in `H`, if any. -/
def firstMatchFrom (H P : List Nat) (start : Nat) : Option Nat :=
  firstMatchFromF H P (H.length + 1) start

/-- Termination predicate for the Go `indexOfHelper` loop: some amount of
fuel makes the fueled model finish. -/
def indexOfTerminates (haystack : List Nat) (needle : Needle)
    (haystackLen haystackSkip : Nat) : Prop :=
  ∃ fuel, (indexOfLoopF haystack needle haystackLen fuel
    (uadd (usub needle.length 1) haystackSkip)).isSome

/-! ### Declarative (claim-side) descriptions of the two jump tables -/

/-- The position of the rightmost occurrence of byte `c` among
`needle[0 .. n-1]`, if any. -/
def lastOccBefore (needle : List Nat) (c n : Nat) : Option Nat :=
  ((List.range n).filter (fun i => needle.getD i 0 == c)).getLast?

/-- The bad-character table exactly as the specification describes it: every
byte defaults to the pattern length; a byte occurring in the pattern
(excluding the final position) is mapped to the distance from its rightmost
such occurrence to the end of the pattern. -/
def claimCharTable (needle : List Nat) (c : Nat) : Nat :=
  match lastOccBefore needle c (needle.length - 1) with
  | some i => needle.length - 1 - i
  | none => needle.length

/-- The least `q` with `m ≤ q ≤ needle.length` such that `needle[q:]` is a
prefix of `needle` (declaratively, the `lastPrefixPosition` that pass 1 of
the good-suffix construction has in hand when it processes position `m-1`). -/
def lppDecl (needle : List Nat) (m : Nat) : Nat :=
  (((List.range' m (needle.length + 1 - m)).filter
      (fun q => isPrefixAt needle q))).headD needle.length

/-- The greatest `k ≤ p+1` such that the last `k` bytes ending at position
`p` agree with the last `k` bytes of the pattern: the declarative reading of
"the length of the longest suffix of the pattern ending at position `p`". -/
def slDecl (needle : List Nat) (p : Nat) : Nat :=
  Nat.findGreatest
    (fun k => ∀ m < k, needle.getD (p - m) 0 = needle.getD (needle.length - 1 - m) 0)
    (p + 1)

/-- Pass 1 of the good-suffix table as the specification describes it:
entry `length-1-p` is `lastPrefixPosition - p + length - 1` where
`lastPrefixPosition` is the least prefix-suffix position `> p`. -/
def claimPass1 (needle : List Nat) : List Nat :=
  ((List.range needle.length).reverse).map
    (fun m => lppDecl needle (m+1) - m + needle.length - 1)

/-- The good-suffix table as the specification describes it: pass 1, then
for each `p < length-1` the entry at index `slDecl p` is overwritten with
`length-1-p + slDecl p` (later `p` wins). -/
def claimOffsetTable (needle : List Nat) : List Nat :=
  (List.range (needle.length - 1)).foldl
    (fun t i => t.set (slDecl needle i) (needle.length - 1 - i + slDecl needle i))
    (claimPass1 needle)

/-! ### Concrete inputs used by refutations -/

/-- A 4097-byte haystack: 4032 zero bytes followed by 65 ones.  Streamed
through the 4096-byte window it exercises exactly one boundary carryover. -/
def hayCarry : List Nat := List.replicate 4032 0 ++ List.replicate 65 1

/-- A 64-byte needle of ones: it matches `hayCarry` at offsets 4032 and
4033 (the second match straddles the window boundary). -/
def needleOnes : List Nat := List.replicate 64 1

/-- A needle one byte longer than the streaming window (4097 > 4096). -/
def needleLong : List Nat := 2 :: (List.replicate 4095 1 ++ [3])

/-- A haystack of `2^32 - 1` zero bytes (a valid ~4 GiB Go slice): on it the
scan position of `indexOfHelper` with `needleLoop` cycles through residues
`1 mod 4` forever and the loop never exits. -/
def hayHuge : List Nat := List.replicate (U32 - 1) 0

/-- The needle `[1,0,1,1,1,2]`: its tables give a constant shift of 4 on a
zero byte, while the only exit index `2^32 - 1` is `3 mod 4`. -/
def needleLoop : List Nat := [1, 0, 1, 1, 1, 2]

/-- A haystack of `2^32 + 2` bytes whose only `[1,1]` occurrence starts at
offset `2^32`: `uint32` truncation makes the in-memory search miss it. -/
def hayWrap : List Nat := List.replicate U32 0 ++ [1, 1]

/-- A second haystack of `2^32 + 2` bytes whose only `[2,2]` occurrence
starts at offset `2^32`: were in-memory offsets merely wrapped modulo
`2^32`, this match would be reported at offset `0`; instead it is lost. -/
def hayWrap2 : List Nat := List.replicate U32 0 ++ [2, 2]


/-! ## Arithmetic facts about the uint32 model -/

theorem U32_pos : 0 < U32 := by norm_num [U32]

theorem uadd_eq {a b : Nat} (h : a + b < U32) : uadd a b = a + b :=
  Nat.mod_eq_of_lt h

theorem usub_eq {a b : Nat} (hb : b ≤ a) (ha : a < U32) : usub a b = a - b := by
  unfold usub
  rw [Nat.mod_eq_of_lt (lt_of_le_of_lt hb ha)]
  have h1 : U32 - b + a = (a - b) + U32 := by
    have : b ≤ U32 := by omega
    omega
  rw [h1, Nat.add_mod_right, Nat.mod_eq_of_lt (by omega)]

/-! ## The naive match predicate -/

theorem matchAtB_iff {H P : List Nat} {p : Nat} :
    matchAtB H P p = true ↔
      p + P.length ≤ H.length ∧ ∀ k < P.length, H.getD (p+k) 0 = P.getD k 0 := by
  simp [matchAtB, List.all_eq_true, List.mem_range]

/-! ## The inner right-to-left comparison loop -/

theorem scanBack_found {H : List Nat} {needle : Needle} :
    ∀ {j i q : Nat}, scanBack H needle i j = .found q → j ≤ i →
      q = i - j ∧ ∀ k ≤ j, needle.bytes.getD k 0 = H.getD (i - j + k) 0 := by
  intro j
  induction j with
  | zero =>
    intro i q hscan _
    rw [scanBack] at hscan
    by_cases hb : needle.bytes.getD 0 0 == H.getD i 0
    · rw [if_pos hb] at hscan
      cases hscan
      refine ⟨rfl, ?_⟩
      intro k hk
      interval_cases k
      simpa using (beq_iff_eq.mp hb)
    · rw [if_neg hb] at hscan
      cases hscan
  | succ j ih =>
    intro i q hscan hji
    rw [scanBack] at hscan
    by_cases hb : needle.bytes.getD (j+1) 0 == H.getD i 0
    · rw [if_pos hb] at hscan
      obtain ⟨hq, hall⟩ := ih hscan (by omega)
      refine ⟨by omega, ?_⟩
      intro k hk
      rcases Nat.lt_or_ge k (j+1) with hk' | hk'
      · have := hall k (by omega)
        have harith : i - 1 - j + k = i - (j+1) + k := by omega
        rwa [harith] at this
      · have hkk : k = j + 1 := by omega
        subst hkk
        have harith : i - (j+1) + (j+1) = i := by omega
        rw [harith]
        exact beq_iff_eq.mp hb
    · rw [if_neg hb] at hscan
      cases hscan

theorem scanBack_mismatch {H : List Nat} {needle : Needle} :
    ∀ {j i i' j' : Nat}, scanBack H needle i j = .mismatch i' j' → j ≤ i →
      j' ≤ j ∧ i' = i - (j - j') ∧ needle.bytes.getD j' 0 ≠ H.getD i' 0 ∧
        ∀ k, j' < k → k ≤ j → needle.bytes.getD k 0 = H.getD (i - j + k) 0 := by
  intro j
  induction j with
  | zero =>
    intro i i' j' hscan _
    rw [scanBack] at hscan
    by_cases hb : needle.bytes.getD 0 0 == H.getD i 0
    · rw [if_pos hb] at hscan
      cases hscan
    · rw [if_neg hb] at hscan
      cases hscan
      refine ⟨le_refl _, by omega, by simpa using hb, ?_⟩
      intro k hk1 hk2
      omega
  | succ j ih =>
    intro i i' j' hscan hji
    rw [scanBack] at hscan
    by_cases hb : needle.bytes.getD (j+1) 0 == H.getD i 0
    · rw [if_pos hb] at hscan
      obtain ⟨h1, h2, h3, h4⟩ := ih hscan (by omega)
      refine ⟨by omega, by omega, h3, ?_⟩
      intro k hk1 hk2
      rcases Nat.lt_or_ge k (j+1) with hk' | hk'
      · have := h4 k hk1 (by omega)
        have harith : i - 1 - j + k = i - (j+1) + k := by omega
        rwa [harith] at this
      · have hkk : k = j + 1 := by omega
        subst hkk
        have harith : i - (j+1) + (j+1) = i := by omega
        rw [harith]
        exact beq_iff_eq.mp hb
    · rw [if_neg hb] at hscan
      cases hscan
      refine ⟨le_refl _, by omega, by simpa using hb, ?_⟩
      intro k hk1 hk2
      omega

/-! ## The prefix test -/

theorem isPrefixAux_iff {needle : List Nat} :
    ∀ {n i j : Nat}, isPrefixAux needle i j n = true ↔
      ∀ m < n, needle.getD (i + m) 0 = needle.getD (j + m) 0 := by
  intro n
  induction n with
  | zero => intro i j; simp [isPrefixAux]
  | succ n ih =>
    intro i j
    rw [isPrefixAux]
    simp only [Bool.and_eq_true, beq_iff_eq, ih]
    constructor
    · rintro ⟨h0, hrest⟩ m hm
      cases m with
      | zero => simpa using h0
      | succ m =>
        have := hrest m (by omega)
        have ha : i + 1 + m = i + (m+1) := by omega
        have hb : j + 1 + m = j + (m+1) := by omega
        rwa [ha, hb] at this
    · intro hall
      refine ⟨by simpa using hall 0 (by omega), ?_⟩
      intro m hm
      have := hall (m+1) (by omega)
      have ha : i + 1 + m = i + (m+1) := by omega
      have hb : j + 1 + m = j + (m+1) := by omega
      rw [ha, hb]
      exact this

theorem isPrefixAt_iff {needle : List Nat} {p : Nat} :
    isPrefixAt needle p = true ↔
      ∀ m, p + m < needle.length → needle.getD (p + m) 0 = needle.getD m 0 := by
  unfold isPrefixAt
  rw [isPrefixAux_iff]
  constructor
  · intro h m hm
    simpa using h m (by omega)
  · intro h m hm
    simpa using h m (by omega)

theorem isPrefixAt_of_le_length {needle : List Nat} {p : Nat}
    (h : needle.length ≤ p) : isPrefixAt needle p = true := by
  rw [isPrefixAt_iff]
  intro m hm
  omega

/-! ## The suffix-length helper -/

theorem suffixLengthAux_spec {needle : List Nat} :
    ∀ i j, suffixLengthAux needle i j ≤ i + 1 ∧
      (∀ m < suffixLengthAux needle i j,
        needle.getD (i - m) 0 = needle.getD (j - m) 0) ∧
      (suffixLengthAux needle i j = i + 1 ∨
        needle.getD (i - suffixLengthAux needle i j) 0 ≠
          needle.getD (j - suffixLengthAux needle i j) 0) := by
  intro i
  induction i with
  | zero =>
    intro j
    rw [suffixLengthAux]
    by_cases hb : needle.getD 0 0 == needle.getD j 0
    · rw [if_pos hb]
      refine ⟨le_refl _, ?_, Or.inl rfl⟩
      intro m hm
      interval_cases m
      simpa using (beq_iff_eq.mp hb)
    · rw [if_neg hb]
      exact ⟨by omega, by omega, Or.inr (by simpa using hb)⟩
  | succ i ih =>
    intro j
    rw [suffixLengthAux]
    by_cases hb : needle.getD (i+1) 0 == needle.getD j 0
    · rw [if_pos hb]
      obtain ⟨h1, h2, h3⟩ := ih (j-1)
      refine ⟨by omega, ?_, ?_⟩
      · intro m hm
        cases m with
        | zero => simpa using (beq_iff_eq.mp hb)
        | succ m =>
          have := h2 m (by omega)
          have ha : i + 1 - (m+1) = i - m := by omega
          have hbj : j - (m+1) = j - 1 - m := by omega
          rw [ha, hbj]
          exact this
      · rcases h3 with h3 | h3
        · exact Or.inl (by omega)
        · refine Or.inr ?_
          have ha : i + 1 - (1 + suffixLengthAux needle i (j-1)) =
              i - suffixLengthAux needle i (j-1) := by omega
          have hbj : j - (1 + suffixLengthAux needle i (j-1)) =
              j - 1 - suffixLengthAux needle i (j-1) := by omega
          rw [ha, hbj]
          exact h3
    · rw [if_neg hb]
      exact ⟨by omega, by omega, Or.inr (by simpa using hb)⟩

theorem suffixLength_eq_slDecl {needle : List Nat} {p : Nat} :
    suffixLength needle p = slDecl needle p := by
  obtain ⟨h1, h2, h3⟩ := @suffixLengthAux_spec needle p (needle.length - 1)
  unfold suffixLength
  symm
  unfold slDecl
  rw [Nat.findGreatest_eq_iff]
  refine ⟨by omega, fun _ => h2, ?_⟩
  intro n hn hn' hQ
  rcases h3 with h3 | h3
  · omega
  · exact h3 (hQ _ (by omega))


/-! ## The least prefix position -/

theorem lppDecl_of_gt {needle : List Nat} {m : Nat} (h : needle.length < m) :
    lppDecl needle m = needle.length := by
  unfold lppDecl
  have h0 : needle.length + 1 - m = 0 := by omega
  rw [h0]
  rfl

theorem lppDecl_step {needle : List Nat} {m : Nat} (h : m ≤ needle.length) :
    lppDecl needle m = if isPrefixAt needle m then m else lppDecl needle (m+1) := by
  unfold lppDecl
  have h1 : needle.length + 1 - m = (needle.length - m) + 1 := by omega
  have h2 : needle.length + 1 - (m+1) = needle.length - m := by omega
  rw [h1, h2, List.range'_succ, List.filter_cons]
  by_cases hb : isPrefixAt needle m
  · rw [if_pos hb, if_pos hb]
    rfl
  · rw [if_neg hb, if_neg hb]

theorem lppDecl_spec {needle : List Nat} {m : Nat} (h : m ≤ needle.length) :
    m ≤ lppDecl needle m ∧ lppDecl needle m ≤ needle.length ∧
      isPrefixAt needle (lppDecl needle m) = true ∧
      ∀ q, m ≤ q → isPrefixAt needle q = true → lppDecl needle m ≤ q := by
  generalize hd : needle.length - m = d
  induction d generalizing m with
  | zero =>
    have hm : m = needle.length := by omega
    subst hm
    rw [lppDecl_step (le_refl _), if_pos (isPrefixAt_of_le_length (le_refl _))]
    exact ⟨le_refl _, le_refl _, isPrefixAt_of_le_length (le_refl _),
      fun q hq _ => hq⟩
  | succ d ih =>
    rw [lppDecl_step h]
    by_cases hb : isPrefixAt needle m
    · rw [if_pos hb]
      exact ⟨le_refl _, h, hb, fun q hq _ => hq⟩
    · rw [if_neg hb]
      obtain ⟨h1, h2, h3, h4⟩ := @ih (m+1) (by omega) (by omega)
      refine ⟨by omega, h2, h3, ?_⟩
      intro q hq hpre
      rcases Nat.eq_or_lt_of_le hq with hq' | hq'
      · subst hq'
        exact absurd hpre (by simpa using hb)
      · exact h4 q (by omega) hpre

/-! ## Pass 1 of the good-suffix table -/

theorem offsetPass1_eq {needle : List Nat} :
    ∀ i, i < needle.length →
      offsetPass1 needle (lppDecl needle (i+2)) i =
        ((List.range (i+1)).reverse).map
          (fun m => (lppDecl needle (m+1) - m + needle.length - 1) % U32) := by
  intro i
  induction i with
  | zero =>
    intro h
    simp only [offsetPass1]
    have hrev : ((List.range 1).reverse).map
        (fun m => (lppDecl needle (m+1) - m + needle.length - 1) % U32) =
        [(lppDecl needle 1 - 0 + needle.length - 1) % U32] := rfl
    rw [hrev]
    have hstep : lppDecl needle 1 =
        if isPrefixAt needle 1 then 1 else lppDecl needle 2 :=
      lppDecl_step (by omega)
    rw [← hstep]
  | succ i ih =>
    intro h
    simp only [offsetPass1]
    have hrev : (List.range (i+2)).reverse =
        (i+1) :: (List.range (i+1)).reverse := by
      rw [List.range_succ, List.reverse_append]
      rfl
    rw [hrev, List.map_cons]
    have hlpp : (if isPrefixAt needle (i+2) = true then i+2 else lppDecl needle (i+3))
        = lppDecl needle (i+2) := (lppDecl_step (by omega)).symm
    rw [hlpp]
    exact congrArg _ (ih (by omega))

/-! ## The bad-character table -/

theorem lastOccBefore_succ {needle : List Nat} {c n : Nat} :
    lastOccBefore needle c (n+1) =
      if needle.getD n 0 == c then some n else lastOccBefore needle c n := by
  unfold lastOccBefore
  rw [List.range_succ, List.filter_append]
  by_cases hb : needle.getD n 0 == c
  · rw [if_pos hb]
    simp only [List.filter_cons, hb, if_true, List.filter_nil]
    exact List.getLast?_concat _
  · rw [if_neg hb]
    have hf : List.filter (fun i => needle.getD i 0 == c) [n] = [] := by
      rw [List.filter_cons, if_neg hb]
      rfl
    rw [hf, List.append_nil]

theorem lastOccBefore_zero {needle : List Nat} {c : Nat} :
    lastOccBefore needle c 0 = none := rfl

theorem lastOccBefore_some {needle : List Nat} {c : Nat} :
    ∀ {n i}, lastOccBefore needle c n = some i →
      i < n ∧ needle.getD i 0 = c ∧ ∀ q, i < q → q < n → needle.getD q 0 ≠ c := by
  intro n
  induction n with
  | zero => intro i h; cases h
  | succ n ih =>
    intro i h
    rw [lastOccBefore_succ] at h
    by_cases hb : needle.getD n 0 == c
    · rw [if_pos hb] at h
      cases h
      exact ⟨by omega, beq_iff_eq.mp hb, fun q hq1 hq2 => by omega⟩
    · rw [if_neg hb] at h
      obtain ⟨h1, h2, h3⟩ := ih h
      refine ⟨by omega, h2, ?_⟩
      intro q hq1 hq2
      rcases Nat.lt_or_ge q n with hq' | hq'
      · exact h3 q hq1 hq'
      · have hq'' : q = n := by omega
        subst hq''
        simpa using hb

theorem lastOccBefore_none {needle : List Nat} {c : Nat} :
    ∀ {n}, lastOccBefore needle c n = none → ∀ q < n, needle.getD q 0 ≠ c := by
  intro n
  induction n with
  | zero => intro _ q hq; omega
  | succ n ih =>
    intro h q hq
    rw [lastOccBefore_succ] at h
    by_cases hb : needle.getD n 0 == c
    · rw [if_pos hb] at h
      cases h
    · rw [if_neg hb] at h
      rcases Nat.lt_or_ge q n with hq' | hq'
      · exact ih h q hq'
      · have hq'' : q = n := by omega
        subst hq''
        simpa using hb

theorem makeCharTable_eq {needle : List Nat} (hL : needle.length < U32) (c : Nat) :
    makeCharTable needle c = claimCharTable needle c := by
  unfold makeCharTable claimCharTable
  suffices h : ∀ n, ((List.range n).foldl
      (fun t i => Function.update t (needle.getD i 0) ((needle.length - 1 - i) % U32))
      (fun _ => needle.length % U32)) c =
      match lastOccBefore needle c n with
      | some i => needle.length - 1 - i
      | none => needle.length from h (needle.length - 1)
  intro n
  induction n with
  | zero =>
    simp only [List.range_zero, List.foldl_nil, lastOccBefore_zero]
    exact Nat.mod_eq_of_lt hL
  | succ n ih =>
    rw [List.range_succ, List.foldl_append, List.foldl_cons, List.foldl_nil,
      lastOccBefore_succ]
    by_cases hb : needle.getD n 0 == c
    · rw [if_pos hb]
      have hc : needle.getD n 0 = c := beq_iff_eq.mp hb
      rw [← hc, Function.update_same]
      exact Nat.mod_eq_of_lt (by omega)
    · rw [if_neg hb]
      have hne : ¬ needle.getD n 0 = c := by simpa using hb
      rw [Function.update_noteq (Ne.symm hne)]
      exact ih

theorem makeCharTable_eq_some {needle : List Nat} {c i : Nat}
    (hL : needle.length < U32)
    (hlast : lastOccBefore needle c (needle.length - 1) = some i) :
    makeCharTable needle c = needle.length - 1 - i := by
  rw [makeCharTable_eq hL c]
  unfold claimCharTable
  rw [hlast]

theorem makeCharTable_eq_none {needle : List Nat} {c : Nat}
    (hL : needle.length < U32)
    (hlast : lastOccBefore needle c (needle.length - 1) = none) :
    makeCharTable needle c = needle.length := by
  rw [makeCharTable_eq hL c]
  unfold claimCharTable
  rw [hlast]

theorem makeCharTable_pos {needle : List Nat} (h1 : 1 ≤ needle.length)
    (hL : needle.length < U32) (c : Nat) : 1 ≤ makeCharTable needle c := by
  rcases hlast : lastOccBefore needle c (needle.length - 1) with _ | i
  · rw [makeCharTable_eq_none hL hlast]
    exact h1
  · rw [makeCharTable_eq_some hL hlast]
    obtain ⟨hi, _, _⟩ := lastOccBefore_some hlast
    omega

theorem makeCharTable_le {needle : List Nat} (hL : needle.length < U32) (c : Nat) :
    makeCharTable needle c ≤ needle.length := by
  rcases hlast : lastOccBefore needle c (needle.length - 1) with _ | i
  · rw [makeCharTable_eq_none hL hlast]
  · rw [makeCharTable_eq_some hL hlast]
    omega

/-- Bad-character soundness: the byte `c` does not occur strictly inside the
region the bad-character shift skips over. -/
theorem makeCharTable_sound {needle : List Nat} (hL : needle.length < U32)
    {c q : Nat} (h1 : needle.length - makeCharTable needle c ≤ q)
    (h2 : q < needle.length - 1) : needle.getD q 0 ≠ c := by
  rcases hlast : lastOccBefore needle c (needle.length - 1) with _ | i
  · exact lastOccBefore_none hlast q (by omega)
  · rw [makeCharTable_eq_some hL hlast] at h1
    obtain ⟨hi, hc, hmax⟩ := lastOccBefore_some hlast
    exact hmax q (by omega) (by omega)


/-! ## Structure of the finished good-suffix table -/

theorem suffixLength_spec {needle : List Nat} (p : Nat) :
    suffixLength needle p ≤ p + 1 ∧
      (∀ m < suffixLength needle p,
        needle.getD (p - m) 0 = needle.getD (needle.length - 1 - m) 0) ∧
      (suffixLength needle p = p + 1 ∨
        needle.getD (p - suffixLength needle p) 0 ≠
          needle.getD (needle.length - 1 - suffixLength needle p) 0) :=
  suffixLengthAux_spec p (needle.length - 1)

theorem offsetPass1_length {needle : List Nat} :
    ∀ i lpp, (offsetPass1 needle lpp i).length = i + 1 := by
  intro i
  induction i with
  | zero => intro lpp; rfl
  | succ i ih =>
    intro lpp
    simp only [offsetPass1, List.length_cons, ih]

theorem offsetPass1_getD {needle : List Nat} (h1 : 1 ≤ needle.length) {t : Nat}
    (ht : t < needle.length) :
    (offsetPass1 needle needle.length (needle.length - 1)).getD t 0 =
      (lppDecl needle (needle.length - t) - (needle.length - 1 - t) +
        needle.length - 1) % U32 := by
  have hinit : offsetPass1 needle needle.length (needle.length - 1) =
      offsetPass1 needle (lppDecl needle ((needle.length - 1) + 2)) (needle.length - 1) := by
    rw [lppDecl_of_gt (by omega)]
  rw [hinit, offsetPass1_eq (needle.length - 1) (by omega)]
  rw [List.getD_eq_getElem?_getD, List.getElem?_map]
  rw [List.getElem?_reverse (by rw [List.length_range]; omega)]
  rw [List.length_range]
  have hidx : needle.length - 1 + 1 - 1 - t = needle.length - 1 - t := by omega
  rw [hidx, List.getElem?_range (by omega)]
  have harith : needle.length - 1 - t + 1 = needle.length - t := by omega
  simp only [Option.map_some', Option.getD_some, harith]

theorem foldl_set_length {needle : List Nat} {v : Nat → Nat} :
    ∀ (l : List Nat) (t1 : List Nat),
      (l.foldl (fun tb i => tb.set (suffixLength needle i) (v i)) t1).length =
        t1.length := by
  intro l
  induction l with
  | nil => intro t1; rfl
  | cons a l ih =>
    intro t1
    rw [List.foldl_cons, ih, List.length_set]

theorem foldl_set_getD {needle : List Nat} {v : Nat → Nat} :
    ∀ (n : Nat) (t1 : List Nat) (t : Nat), t < t1.length →
      ((((List.range n).foldl (fun tb i => tb.set (suffixLength needle i) (v i)) t1).getD t 0 =
          t1.getD t 0 ∧ ∀ i < n, suffixLength needle i ≠ t) ∨
      (∃ i, i < n ∧ suffixLength needle i = t ∧
        ((List.range n).foldl (fun tb i => tb.set (suffixLength needle i) (v i)) t1).getD t 0
          = v i ∧
        ∀ i', i < i' → i' < n → suffixLength needle i' ≠ t)) := by
  intro n
  induction n with
  | zero =>
    intro t1 t ht
    left
    exact ⟨rfl, by omega⟩
  | succ n ih =>
    intro t1 t ht
    rw [List.range_succ, List.foldl_append, List.foldl_cons, List.foldl_nil]
    have hlen : ((List.range n).foldl
        (fun tb i => tb.set (suffixLength needle i) (v i)) t1).length = t1.length :=
      foldl_set_length _ _
    by_cases hb : suffixLength needle n = t
    · right
      refine ⟨n, by omega, hb, ?_, by omega⟩
      rw [List.getD_eq_getElem?_getD, ← hb,
        List.getElem?_set_self (by rw [hlen]; omega)]
      rfl
    · rw [List.getD_eq_getElem?_getD, List.getElem?_set_ne hb,
        ← List.getD_eq_getElem?_getD]
      rcases ih t1 t ht with ⟨heq, hnone⟩ | ⟨i, hi, hsl, heq, hmax⟩
      · left
        refine ⟨heq, ?_⟩
        intro i hi
        rcases Nat.lt_or_ge i n with hi' | hi'
        · exact hnone i hi'
        · have : i = n := by omega
          subst this
          exact hb
      · right
        refine ⟨i, by omega, hsl, heq, ?_⟩
        intro i' hi1 hi2
        rcases Nat.lt_or_ge i' n with hi' | hi'
        · exact hmax i' hi1 hi'
        · have : i' = n := by omega
          subst this
          exact hb

theorem makeOffsetTable_length {needle : List Nat} :
    (makeOffsetTable needle).length = needle.length := by
  simp only [makeOffsetTable]
  rw [foldl_set_length]
  by_cases h : needle.length = 0
  · rw [if_pos h, h]
    rfl
  · rw [if_neg h, offsetPass1_length]
    omega

theorem makeOffsetTable_getD_cases {needle : List Nat} (h1 : 1 ≤ needle.length)
    {t : Nat} (ht : t < needle.length) :
    (∃ i, i < needle.length - 1 ∧ suffixLength needle i = t ∧
      (makeOffsetTable needle).getD t 0 = (needle.length - 1 - i + t) % U32 ∧
      ∀ i', i < i' → i' < needle.length - 1 → suffixLength needle i' ≠ t) ∨
    ((∀ i < needle.length - 1, suffixLength needle i ≠ t) ∧
      (makeOffsetTable needle).getD t 0 =
        (lppDecl needle (needle.length - t) - (needle.length - 1 - t) +
          needle.length - 1) % U32) := by
  have hne : ¬ needle.length = 0 := by omega
  have hunfold : makeOffsetTable needle =
      (List.range (needle.length - 1)).foldl
        (fun tb i => tb.set (suffixLength needle i)
          ((needle.length - 1 - i + suffixLength needle i) % U32))
        (offsetPass1 needle needle.length (needle.length - 1)) := by
    simp only [makeOffsetTable]
    rw [if_neg hne]
  rw [hunfold]
  rcases @foldl_set_getD needle
      (fun i => (needle.length - 1 - i + suffixLength needle i) % U32)
      (needle.length - 1) (offsetPass1 needle needle.length (needle.length - 1)) t
      (by rw [offsetPass1_length]; omega) with ⟨heq, hnone⟩ | ⟨i, hi, hsl, heq, hmax⟩
  · right
    exact ⟨hnone, heq.trans (offsetPass1_getD h1 ht)⟩
  · left
    refine ⟨i, hi, hsl, ?_, hmax⟩
    rw [heq, hsl]

theorem makeOffsetTable_bounds {needle : List Nat} (h1 : 1 ≤ needle.length)
    (h2 : 2 * needle.length ≤ U32) {t : Nat} (ht : t < needle.length) :
    t + 1 ≤ (makeOffsetTable needle).getD t 0 ∧
      (makeOffsetTable needle).getD t 0 ≤ 2 * needle.length - 1 := by
  rcases makeOffsetTable_getD_cases h1 ht with ⟨i, hi, hsl, heq, _⟩ | ⟨_, heq⟩
  · have hsl_le : suffixLength needle i ≤ i + 1 := (@suffixLength_spec needle i).1
    rw [heq, Nat.mod_eq_of_lt (by omega)]
    omega
  · obtain ⟨ha, hb, _, _⟩ := @lppDecl_spec needle (needle.length - t) (by omega)
    rw [heq, Nat.mod_eq_of_lt (by omega)]
    omega

/-- If the matched suffix bytes (a mismatch at pattern position `j` leaves
`length-1-j` of them) reoccur `d` positions to the left inside the pattern,
then the suffix length at position `length-1-d` is at least `length-1-j`;
and if it is strictly greater, the byte at position `j-d` equals the byte at
position `j`. -/
theorem suffix_occurrence_helper {needle : List Nat} {j d : Nat}
    (hj : j < needle.length) (hd : 1 ≤ d) (hdj : d ≤ j)
    (hsuff : ∀ k, j < k → k < needle.length → d ≤ k →
      needle.getD (k - d) 0 = needle.getD k 0) :
    needle.length - 1 - j ≤ suffixLength needle (needle.length - 1 - d) ∧
      (needle.length - 1 - j < suffixLength needle (needle.length - 1 - d) →
        needle.getD (j - d) 0 = needle.getD j 0) := by
  have hslp : ∀ m < needle.length - 1 - j,
      needle.getD (needle.length - 1 - d - m) 0 = needle.getD (needle.length - 1 - m) 0 := by
    intro m hm
    have := hsuff (needle.length - 1 - m) (by omega) (by omega) (by omega)
    have harith : needle.length - 1 - m - d = needle.length - 1 - d - m := by omega
    rwa [harith] at this
  obtain ⟨ha, hb, hc⟩ := @suffixLength_spec needle (needle.length - 1 - d)
  have hge : needle.length - 1 - j ≤ suffixLength needle (needle.length - 1 - d) := by
    by_contra hlt
    push_neg at hlt
    rcases hc with hc | hc
    · omega
    · exact hc (hslp _ (by omega))
  refine ⟨hge, ?_⟩
  intro hgt
  have := hb (needle.length - 1 - j) hgt
  have harith1 : needle.length - 1 - d - (needle.length - 1 - j) = j - d := by omega
  have harith2 : needle.length - 1 - (needle.length - 1 - j) = j := by omega
  rwa [harith1, harith2] at this

/-- Good-suffix soundness: a shift `d` skipped by the good-suffix entry for a
mismatch at pattern position `j` (that is, `d + matched + 1 ≤ entry`) cannot
realign the matched suffix except onto a position whose preceding byte is
the same pattern byte that just mismatched. -/
theorem makeOffsetTable_sound {needle : List Nat} (h1 : 1 ≤ needle.length)
    (h2 : 2 * needle.length ≤ U32) {j d : Nat} (hj : j < needle.length) (hd : 1 ≤ d)
    (hlt : d + (needle.length - 1 - j) + 1 ≤
      (makeOffsetTable needle).getD (needle.length - 1 - j) 0)
    (hsuff : ∀ k, j < k → k < needle.length → d ≤ k →
      needle.getD (k - d) 0 = needle.getD k 0) :
    d ≤ j ∧ needle.getD (j - d) 0 = needle.getD j 0 := by
  have ht : needle.length - 1 - j < needle.length := by omega
  rcases makeOffsetTable_getD_cases h1 ht with ⟨i, hi, hsl, heq, hmax⟩ | ⟨hnone, heq⟩
  · -- final value written by pass 2 at position i (the rightmost writer)
    have hsl_le : suffixLength needle i ≤ i + 1 := (@suffixLength_spec needle i).1
    rw [heq, Nat.mod_eq_of_lt (by omega)] at hlt
    have hdj : d ≤ j := by omega
    have hdi : d + i ≤ needle.length - 2 := by omega
    obtain ⟨hge, hmore⟩ := suffix_occurrence_helper hj hd hdj hsuff
    refine ⟨hdj, ?_⟩
    apply hmore
    rcases Nat.eq_or_lt_of_le hge with hslt | hslt
    · exfalso
      exact hmax (needle.length - 1 - d) (by omega) (by omega) hslt.symm
    · exact hslt
  · -- the pass-1 (prefix rule) value survived
    obtain ⟨hlpp1, hlpp2, hlpp3, hlpp4⟩ := @lppDecl_spec needle (needle.length - (needle.length - 1 - j)) (by omega)
    rw [heq, Nat.mod_eq_of_lt (by omega)] at hlt
    have hdlpp : d < lppDecl needle (needle.length - (needle.length - 1 - j)) := by omega
    rcases le_or_lt d j with hdj | hdj
    · obtain ⟨hge, hmore⟩ := suffix_occurrence_helper hj hd hdj hsuff
      refine ⟨hdj, ?_⟩
      apply hmore
      rcases Nat.eq_or_lt_of_le hge with hslt | hslt
      · exfalso
        exact hnone (needle.length - 1 - d) (by omega) hslt.symm
      · exact hslt
    · -- d > j: the shift would land before lastPrefixPosition, contradicting
      -- its minimality among prefix-suffix alignments
      exfalso
      have hpre : isPrefixAt needle d = true := by
        rw [isPrefixAt_iff]
        intro m hm
        have := hsuff (d + m) (by omega) hm (by omega)
        have harith : d + m - d = m := by omega
        rw [harith] at this
        exact this.symm
      have := hlpp4 d (by omega) hpre
      omega


/-! ## The naive first-match function -/

theorem matchAtB_of_too_long {H P : List Nat} {q : Nat}
    (h : H.length < q + P.length) : matchAtB H P q = false := by
  unfold matchAtB
  rw [decide_eq_false (by omega)]
  rfl

theorem firstMatchFromF_some {H P : List Nat} :
    ∀ {fuel start m : Nat}, H.length < start + fuel →
      firstMatchFromF H P fuel start = some m →
      start ≤ m ∧ matchAtB H P m = true ∧
        ∀ q, start ≤ q → q < m → matchAtB H P q = false := by
  intro fuel
  induction fuel with
  | zero => intro start m _ h; cases h
  | succ fuel ih =>
    intro start m hb h
    rw [firstMatchFromF] at h
    by_cases h1 : H.length < start + P.length
    · rw [if_pos h1] at h
      cases h
    · rw [if_neg h1] at h
      by_cases h2 : matchAtB H P start = true
      · rw [if_pos h2] at h
        cases h
        exact ⟨le_refl _, h2, fun q hq1 hq2 => by omega⟩
      · rw [if_neg h2] at h
        obtain ⟨g1, g2, g3⟩ := ih (by omega) h
        refine ⟨by omega, g2, ?_⟩
        intro q hq1 hq2
        rcases Nat.lt_or_ge q (start+1) with hq' | hq'
        · have : q = start := by omega
          subst this
          exact Bool.not_eq_true _ ▸ (by simpa using h2)
        · exact g3 q hq' hq2

theorem firstMatchFromF_none {H P : List Nat} :
    ∀ {fuel start : Nat}, H.length < start + fuel →
      firstMatchFromF H P fuel start = none →
      ∀ q, start ≤ q → matchAtB H P q = false := by
  intro fuel
  induction fuel with
  | zero =>
    intro start hb _ q hq
    exact matchAtB_of_too_long (by omega)
  | succ fuel ih =>
    intro start hb h q hq
    rw [firstMatchFromF] at h
    by_cases h1 : H.length < start + P.length
    · rw [if_pos h1] at h
      exact matchAtB_of_too_long (by omega)
    · rw [if_neg h1] at h
      by_cases h2 : matchAtB H P start = true
      · rw [if_pos h2] at h
        cases h
      · rw [if_neg h2] at h
        rcases Nat.lt_or_ge q (start+1) with hq' | hq'
        · have : q = start := by omega
          subst this
          simpa using h2
        · exact ih (by omega) h q hq'

theorem firstMatchFrom_some_iff {H P : List Nat} {start m : Nat} :
    firstMatchFrom H P start = some m ↔
      (start ≤ m ∧ matchAtB H P m = true ∧
        ∀ q, start ≤ q → q < m → matchAtB H P q = false) := by
  constructor
  · exact fun h => firstMatchFromF_some (by omega) h
  · rintro ⟨h1, h2, h3⟩
    rcases hfm : firstMatchFrom H P start with _ | m'
    · have := firstMatchFromF_none (by omega) hfm m h1
      rw [h2] at this
      cases this
    · obtain ⟨g1, g2, g3⟩ := firstMatchFromF_some (by omega) hfm
      have hmm : m' = m := by
        rcases lt_trichotomy m' m with hlt | heq | hgt
        · have := h3 m' g1 hlt
          rw [g2] at this
          cases this
        · exact heq
        · have := g3 m h1 hgt
          rw [h2] at this
          cases this
      rw [hmm]

theorem firstMatchFrom_none_iff {H P : List Nat} {start : Nat} :
    firstMatchFrom H P start = none ↔
      ∀ q, start ≤ q → matchAtB H P q = false := by
  constructor
  · exact fun h => firstMatchFromF_none (by omega) h
  · intro h
    rcases hfm : firstMatchFrom H P start with _ | m'
    · rfl
    · obtain ⟨g1, g2, _⟩ := firstMatchFromF_some (by omega) hfm
      have := h m' g1
      rw [g2] at this
      cases this

theorem firstMatchFrom_congr {H P : List Nat} {a b : Nat} (hab : a ≤ b)
    (hskip : ∀ q, a ≤ q → q < b → matchAtB H P q = false) :
    firstMatchFrom H P a = firstMatchFrom H P b := by
  rcases hfb : firstMatchFrom H P b with _ | m
  · rw [firstMatchFrom_none_iff] at hfb ⊢
    intro q hq
    rcases Nat.lt_or_ge q b with h | h
    · exact hskip q hq h
    · exact hfb q h
  · rw [firstMatchFrom_some_iff] at hfb ⊢
    obtain ⟨h1, h2, h3⟩ := hfb
    refine ⟨by omega, h2, ?_⟩
    intro q hq hqm
    rcases Nat.lt_or_ge q b with h | h
    · exact hskip q hq h
    · exact h3 q h hqm

/-! ## Soundness of a full shift of the matcher -/

/-- No occurrence of the needle begins anywhere in the region a combined
bad-character/good-suffix shift skips over. -/
theorem no_match_in_skipped {H P : List Nat} (hP : 1 ≤ P.length)
    (h2 : 2 * P.length ≤ U32) {p j d : Nat} (hj : j ≤ P.length - 1)
    (hne : P.getD j 0 ≠ H.getD (p + j) 0)
    (hmatched : ∀ k, j < k → k ≤ P.length - 1 → P.getD k 0 = H.getD (p + k) 0)
    (hd : d + (P.length - 1 - j) <
      max ((makeOffsetTable P).getD (P.length - 1 - j) 0)
          (makeCharTable P (H.getD (p + j) 0))) :
    matchAtB H P (p + d) = false := by
  by_contra hcon
  rw [Bool.not_eq_false, matchAtB_iff] at hcon
  obtain ⟨hbound, hbytes⟩ := hcon
  rcases Nat.eq_zero_or_pos d with hd0 | hd1
  · subst hd0
    have := hbytes j (by omega)
    have harith : p + 0 + j = p + j := by omega
    rw [harith] at this
    exact hne this.symm
  · have hsuff : ∀ k, j < k → k < P.length → d ≤ k →
        P.getD (k - d) 0 = P.getD k 0 := by
      intro k hk1 hk2 hk3
      have hb1 := hbytes (k - d) (by omega)
      have harith : p + d + (k - d) = p + k := by omega
      rw [harith] at hb1
      have hb2 := hmatched k hk1 (by omega)
      rw [← hb1, ← hb2]
    rcases le_or_lt (makeCharTable P (H.getD (p + j) 0))
        ((makeOffsetTable P).getD (P.length - 1 - j) 0) with hmx | hmx
    · -- the good-suffix entry is the (weakly) larger shift
      rw [Nat.max_eq_left hmx] at hd
      obtain ⟨hdj, hgs⟩ := makeOffsetTable_sound hP h2 (by omega) hd1 (by omega) hsuff
      have hb1 := hbytes (j - d) (by omega)
      have harith : p + d + (j - d) = p + j := by omega
      rw [harith] at hb1
      rw [hgs] at hb1
      exact hne hb1.symm
    · -- the bad-character entry is the larger shift
      rw [Nat.max_eq_right (Nat.le_of_lt hmx)] at hd
      have hctle := @makeCharTable_le P (by omega) (H.getD (p + j) 0)
      have hdj : d ≤ j := by omega
      have hb1 := hbytes (j - d) (by omega)
      have harith : p + d + (j - d) = p + j := by omega
      rw [harith] at hb1
      have := @makeCharTable_sound P (by omega)
        (H.getD (p + j) 0) (j - d) (by omega) (by omega)
      exact this hb1.symm

/-! ## The matcher loop finds exactly the first match -/

theorem indexOfLoopF_zero {haystack : List Nat} {needle : Needle} {haystackLen i : Nat} :
    indexOfLoopF haystack needle haystackLen 0 i = none := rfl

theorem indexOfLoopF_succ {haystack : List Nat} {needle : Needle}
    {haystackLen fuel i : Nat} :
    indexOfLoopF haystack needle haystackLen (fuel+1) i =
      (if i < haystackLen then
        match scanBack haystack needle i (usub needle.length 1) with
        | .found pos => some pos
        | .mismatch i' j =>
          indexOfLoopF haystack needle haystackLen fuel
            (uadd i' (max (needle.offsetTable.getD (usub (usub needle.length 1) j) 0)
                          (needle.charTable (haystack.getD i' 0))))
      else some errorOffset) := rfl

theorem indexOfLoopF_eq {H P : List Nat} (hP : 1 ≤ P.length)
    (hsize : H.length + 2 * P.length ≤ U32) :
    ∀ fuel i, H.length < i + fuel → 1 ≤ fuel → P.length - 1 ≤ i → i < U32 →
      indexOfLoopF H (NewNeedleBytes P) H.length fuel i =
        some ((firstMatchFrom H P (i - (P.length - 1))).getD errorOffset) := by
  intro fuel
  induction fuel with
  | zero => intro i _ h1 _ _; omega
  | succ fuel ih =>
    intro i hfuel _ hiL hiU
    have hnl : (NewNeedleBytes P).length = P.length := Nat.mod_eq_of_lt (by omega)
    have husub : usub (NewNeedleBytes P).length 1 = P.length - 1 := by
      rw [hnl]
      exact usub_eq (by omega) (by omega)
    by_cases hile : i < H.length
    · rcases hscan : scanBack H (NewNeedleBytes P) i (P.length - 1) with pos | ⟨i', j⟩
      · -- full match found at this alignment
        obtain ⟨hq, hall⟩ := scanBack_found hscan (by omega)
        have hlhs : indexOfLoopF H (NewNeedleBytes P) H.length (fuel+1) i = some pos := by
          rw [indexOfLoopF_succ, if_pos hile, husub, hscan]
        rw [hlhs]
        have hmatch : matchAtB H P (i - (P.length - 1)) = true := by
          rw [matchAtB_iff]
          refine ⟨by omega, ?_⟩
          intro k hk
          exact (hall k (by omega)).symm
        have hfm : firstMatchFrom H P (i - (P.length - 1)) =
            some (i - (P.length - 1)) := by
          rw [firstMatchFrom_some_iff]
          exact ⟨le_refl _, hmatch, fun q h1 h2 => by omega⟩
        rw [hfm, hq]
        rfl
      · -- mismatch: take the combined shift and recurse
        obtain ⟨hj_le, hi', hne, hmatched⟩ := scanBack_mismatch hscan (by omega)
        have husub2 : usub (P.length - 1) j = P.length - 1 - j :=
          usub_eq (by omega) (by omega)
        have hOT : (NewNeedleBytes P).offsetTable = makeOffsetTable P := rfl
        have hCT : (NewNeedleBytes P).charTable = makeCharTable P := rfl
        have hp : i' = i - (P.length - 1) + j := by omega
        have hlhs : indexOfLoopF H (NewNeedleBytes P) H.length (fuel+1) i =
            indexOfLoopF H (NewNeedleBytes P) H.length fuel
              (uadd (i - (P.length - 1) + j)
                (max ((makeOffsetTable P).getD (P.length - 1 - j) 0)
                  (makeCharTable P (H.getD (i - (P.length - 1) + j) 0)))) := by
          rw [indexOfLoopF_succ, if_pos hile, husub, hscan]
          show indexOfLoopF H (NewNeedleBytes P) H.length fuel
              (uadd i' (max ((NewNeedleBytes P).offsetTable.getD (usub (P.length - 1) j) 0)
                ((NewNeedleBytes P).charTable (H.getD i' 0)))) = _
          rw [husub2, hOT, hCT, hp]
        rw [hlhs]
        obtain ⟨hotlo, hothi⟩ := @makeOffsetTable_bounds P hP (by omega)
          (P.length - 1 - j) (by omega)
        have hcthi := @makeCharTable_le P (by omega)
          (H.getD (i - (P.length - 1) + j) 0)
        have hctlo := @makeCharTable_pos P hP (by omega)
          (H.getD (i - (P.length - 1) + j) 0)
        have hmax_le : max ((makeOffsetTable P).getD (P.length - 1 - j) 0)
            (makeCharTable P (H.getD (i - (P.length - 1) + j) 0)) ≤
            2 * P.length - 1 := by
          apply Nat.max_le.mpr
          omega
        have hmax_lo : P.length - 1 - j <
            max ((makeOffsetTable P).getD (P.length - 1 - j) 0)
              (makeCharTable P (H.getD (i - (P.length - 1) + j) 0)) := by
          have := Nat.le_max_left ((makeOffsetTable P).getD (P.length - 1 - j) 0)
            (makeCharTable P (H.getD (i - (P.length - 1) + j) 0))
          omega
        have huadd : uadd (i - (P.length - 1) + j)
            (max ((makeOffsetTable P).getD (P.length - 1 - j) 0)
              (makeCharTable P (H.getD (i - (P.length - 1) + j) 0))) =
            i - (P.length - 1) + j +
              max ((makeOffsetTable P).getD (P.length - 1 - j) 0)
                (makeCharTable P (H.getD (i - (P.length - 1) + j) 0)) := by
          apply uadd_eq
          omega
        rw [huadd]
        rw [ih (i - (P.length - 1) + j +
            max ((makeOffsetTable P).getD (P.length - 1 - j) 0)
              (makeCharTable P (H.getD (i - (P.length - 1) + j) 0)))
          (by omega) (by omega) (by omega) (by omega)]
        have hne' : P.getD j 0 ≠ H.getD (i - (P.length - 1) + j) 0 := by
          rw [← hp]
          exact hne
        have hmember : ∀ k, j < k → k ≤ P.length - 1 →
            P.getD k 0 = H.getD (i - (P.length - 1) + k) 0 :=
          fun k hk1 hk2 => hmatched k hk1 hk2
        have hcongr : firstMatchFrom H P (i - (P.length - 1)) =
            firstMatchFrom H P
              (i - (P.length - 1) + j +
                max ((makeOffsetTable P).getD (P.length - 1 - j) 0)
                  (makeCharTable P (H.getD (i - (P.length - 1) + j) 0)) -
                (P.length - 1)) := by
          apply firstMatchFrom_congr (by omega)
          intro q hq1 hq2
          have hqd : q = i - (P.length - 1) + (q - (i - (P.length - 1))) := by omega
          rw [hqd]
          exact no_match_in_skipped hP (by omega) (by omega) hne' hmember (by omega)
        rw [hcongr]
    · -- past the end of the haystack: not found
      have hlhs : indexOfLoopF H (NewNeedleBytes P) H.length (fuel+1) i =
          some errorOffset := by
        rw [indexOfLoopF_succ, if_neg hile]
      rw [hlhs]
      have hfm : firstMatchFrom H P (i - (P.length - 1)) = none := by
        rw [firstMatchFrom_none_iff]
        intro q hq
        exact matchAtB_of_too_long (by omega)
      rw [hfm]
      rfl

/-- `indexOfHelper` computes the first naive match at or after the skip
position (or `errorOffset`), for in-range inputs. -/
theorem indexOfHelper_eq {H P : List Nat} {skip : Nat} (hP : 1 ≤ P.length)
    (hsize : H.length + 2 * P.length ≤ U32) (hskip : skip ≤ H.length) :
    indexOfHelper H (NewNeedleBytes P) H.length skip =
      (firstMatchFrom H P skip).getD errorOffset := by
  unfold indexOfHelper
  have hnl : (NewNeedleBytes P).length = P.length := Nat.mod_eq_of_lt (by omega)
  have husub : usub (NewNeedleBytes P).length 1 = P.length - 1 := by
    rw [hnl]
    exact usub_eq (by omega) (by omega)
  have huadd : uadd (P.length - 1) skip = P.length - 1 + skip := by
    apply uadd_eq
    omega
  rw [husub, huadd]
  rw [indexOfLoopF_eq hP hsize (H.length + 1) (P.length - 1 + skip) (by omega)
    (by omega) (by omega) (by omega)]
  have harith : P.length - 1 + skip - (P.length - 1) = skip := by omega
  rw [harith]
  rfl


/-! ## Enumerating all matches -/

theorem naiveMatchesFrom_stop {H P : List Nat} {start : Nat} (h : H.length < start) :
    naiveMatchesFrom H P start = [] := by
  unfold naiveMatchesFrom
  have h0 : H.length + 1 - start = 0 := by omega
  rw [h0]
  rfl

theorem naiveMatchesFrom_step {H P : List Nat} {start : Nat} (h : start ≤ H.length) :
    naiveMatchesFrom H P start =
      (if matchAtB H P start then [start] else []) ++ naiveMatchesFrom H P (start+1) := by
  unfold naiveMatchesFrom
  have h1 : H.length + 1 - start = (H.length - start) + 1 := by omega
  have h2 : H.length + 1 - (start+1) = H.length - start := by omega
  rw [h1, h2, List.range'_succ, List.filter_cons]
  by_cases hb : matchAtB H P start
  · rw [if_pos hb, if_pos hb]
    rfl
  · rw [if_neg hb, if_neg hb]
    rfl

theorem naiveMatchesFrom_eq_nil {H P : List Nat} {start : Nat}
    (h : firstMatchFrom H P start = none) : naiveMatchesFrom H P start = [] := by
  rw [firstMatchFrom_none_iff] at h
  generalize hd : H.length + 1 - start = d
  induction d generalizing start with
  | zero => exact naiveMatchesFrom_stop (by omega)
  | succ d ih =>
    rw [naiveMatchesFrom_step (by omega), if_neg (by rw [h start (le_refl _)]; simp)]
    rw [List.nil_append]
    exact ih (fun q hq => h q (by omega)) (by omega)

theorem naiveMatchesFrom_eq_cons {H P : List Nat} {start m : Nat}
    (h : firstMatchFrom H P start = some m) :
    naiveMatchesFrom H P start = m :: naiveMatchesFrom H P (m+1) := by
  rw [firstMatchFrom_some_iff] at h
  obtain ⟨h1, h2, h3⟩ := h
  have hmlen : m ≤ H.length := by
    have := (matchAtB_iff.mp h2).1
    omega
  generalize hd : m - start = d
  induction d generalizing start with
  | zero =>
    have : start = m := by omega
    subst this
    rw [naiveMatchesFrom_step (by omega), if_pos h2]
    rfl
  | succ d ih =>
    rw [naiveMatchesFrom_step (by omega),
      if_neg (by rw [h3 start (le_refl _) (by omega)]; simp)]
    rw [List.nil_append]
    exact ih (by omega) (fun q hq1 hq2 => h3 q (by omega) hq2) (by omega)

theorem naiveMatchesFrom_zero {H P : List Nat} :
    naiveMatchesFrom H P 0 = naiveMatches H P := by
  unfold naiveMatchesFrom naiveMatches
  rw [List.range_eq_range']
  rfl

/-! ## The match-emitting loops -/

theorem scanEmitsF_succ {window : List Nat} {needle : Needle}
    {used offset fuel skip : Nat} :
    scanEmitsF window needle used offset (fuel+1) skip =
      (if indexOfHelper window needle used skip = errorOffset then []
       else ⟨uadd offset (indexOfHelper window needle used skip), none⟩ ::
         scanEmitsF window needle used offset fuel
           (uadd (indexOfHelper window needle used skip) 1)) := rfl

theorem indexesOfLoopF_succ {haystack : List Nat} {needle : Needle}
    {haystackLen fuel skip : Nat} :
    indexesOfLoopF haystack needle haystackLen (fuel+1) skip =
      (if indexOfHelper haystack needle haystackLen skip = errorOffset then []
       else ⟨indexOfHelper haystack needle haystackLen skip, none⟩ ::
         indexesOfLoopF haystack needle haystackLen fuel
           (uadd (indexOfHelper haystack needle haystackLen skip) 1)) := rfl

theorem scanEmitsF_eq {W P : List Nat} {offset : Nat} (hP : 1 ≤ P.length)
    (hsize : W.length + 2 * P.length ≤ U32) :
    ∀ fuel start, W.length < start + fuel → start ≤ W.length →
      scanEmitsF W (NewNeedleBytes P) W.length offset fuel start =
        (naiveMatchesFrom W P start).map (fun p => ⟨uadd offset p, none⟩) := by
  intro fuel
  induction fuel with
  | zero => intro start h1 h2; omega
  | succ fuel ih =>
    intro start h1 h2
    rw [scanEmitsF_succ, indexOfHelper_eq hP hsize h2]
    rcases hfm : firstMatchFrom W P start with _ | m
    · simp only [Option.getD_none]
      rw [if_true, naiveMatchesFrom_eq_nil hfm]
      rfl
    · simp only [Option.getD_some]
      obtain ⟨hm1, hm2, _⟩ := firstMatchFrom_some_iff.mp hfm
      have hmle : m + P.length ≤ W.length := (matchAtB_iff.mp hm2).1
      have hU : U32 = 4294967296 := rfl
      have hE : errorOffset = U32 - 1 := rfl
      rw [if_neg (by omega)]
      rw [naiveMatchesFrom_eq_cons hfm, List.map_cons]
      have huadd : uadd m 1 = m + 1 := uadd_eq (by omega)
      rw [huadd]
      exact congrArg _ (ih (m+1) (by omega) (by omega))

theorem indexesOfLoopF_eq {H P : List Nat} (hP : 1 ≤ P.length)
    (hsize : H.length + 2 * P.length ≤ U32) :
    ∀ fuel start, H.length < start + fuel → start ≤ H.length →
      indexesOfLoopF H (NewNeedleBytes P) H.length fuel start =
        (naiveMatchesFrom H P start).map (fun p => ⟨p, none⟩) := by
  intro fuel
  induction fuel with
  | zero => intro start h1 h2; omega
  | succ fuel ih =>
    intro start h1 h2
    rw [indexesOfLoopF_succ, indexOfHelper_eq hP hsize h2]
    rcases hfm : firstMatchFrom H P start with _ | m
    · simp only [Option.getD_none]
      rw [if_true, naiveMatchesFrom_eq_nil hfm]
      rfl
    · simp only [Option.getD_some]
      obtain ⟨hm1, hm2, _⟩ := firstMatchFrom_some_iff.mp hfm
      have hmle : m + P.length ≤ H.length := (matchAtB_iff.mp hm2).1
      have hU : U32 = 4294967296 := rfl
      have hE : errorOffset = U32 - 1 := rfl
      rw [if_neg (by omega)]
      rw [naiveMatchesFrom_eq_cons hfm, List.map_cons]
      have huadd : uadd m 1 = m + 1 := uadd_eq (by omega)
      rw [huadd]
      exact congrArg _ (ih (m+1) (by omega) (by omega))

/-- The in-memory find-all emits exactly the naive ascending match list, for
a non-empty pattern and in-range sizes. -/
theorem IndexesOf_eq_naiveMatches {H P : List Nat} (hP : P ≠ [])
    (hsize : H.length + 2 * P.length ≤ U32) :
    IndexesOf H P = (naiveMatches H P).map (fun p => ⟨p, none⟩) := by
  have hL : 1 ≤ P.length := List.length_pos.mpr hP
  have hU : U32 = 4294967296 := rfl
  have hnl : (NewNeedleBytes P).length = P.length := Nat.mod_eq_of_lt (by omega)
  have hhl : H.length % U32 = H.length := Nat.mod_eq_of_lt (by omega)
  simp only [IndexesOf]
  rw [hnl, if_neg (by omega), hhl]
  rw [indexesOfLoopF_eq hL hsize (H.length + 1) 0 (by omega) (by omega)]
  rw [naiveMatchesFrom_zero, List.nil_append]


/-! ## List helpers for block-structured inputs -/

theorem take_app {α : Type} {xs ys : List α} :
    ∀ {n : Nat}, xs.length ≤ n → (xs ++ ys).take n = xs ++ ys.take (n - xs.length) := by
  induction xs with
  | nil => intro n h; simp
  | cons a xs ih =>
    intro n h
    cases n with
    | zero => exact absurd h (by simp)
    | succ n =>
      simp only [List.cons_append, List.take_succ_cons, List.length_cons,
        Nat.succ_sub_succ]
      rw [ih (by simpa using h)]

theorem drop_app {α : Type} {xs ys : List α} :
    ∀ {n : Nat}, xs.length ≤ n → (xs ++ ys).drop n = ys.drop (n - xs.length) := by
  induction xs with
  | nil => intro n h; simp
  | cons a xs ih =>
    intro n h
    cases n with
    | zero => exact absurd h (by simp)
    | succ n =>
      simp only [List.cons_append, List.drop_succ_cons, List.length_cons,
        Nat.succ_sub_succ]
      exact ih (by simpa using h)

theorem take_rep {α : Type} {x : α} :
    ∀ {m n : Nat}, m ≤ n → (List.replicate n x).take m = List.replicate m x := by
  intro m
  induction m with
  | zero => intro n _; rfl
  | succ m ih =>
    intro n h
    cases n with
    | zero => omega
    | succ n =>
      rw [List.replicate_succ, List.take_succ_cons, ih (by omega)]
      rfl

theorem drop_rep {α : Type} {x : α} :
    ∀ {m n : Nat}, m ≤ n → (List.replicate n x).drop m = List.replicate (n - m) x := by
  intro m
  induction m with
  | zero => intro n _; rfl
  | succ m ih =>
    intro n h
    cases n with
    | zero => omega
    | succ n =>
      rw [List.replicate_succ, List.drop_succ_cons, ih (by omega),
        Nat.succ_sub_succ]

theorem rep_append_one {α : Type} {x : α} {n : Nat} :
    List.replicate n x ++ [x] = List.replicate (n+1) x := by
  induction n with
  | zero => rfl
  | succ n ih =>
    rw [List.replicate_succ, List.cons_append, ih]
    rfl

theorem getD_rep {b y i : Nat} :
    (List.replicate b y).getD i 0 = if i < b then y else 0 := by
  rw [List.getD_eq_getElem?_getD]
  by_cases h : i < b
  · rw [if_pos h, List.getElem?_replicate_of_lt h]
    rfl
  · rw [if_neg h, List.getElem?_eq_none (by simpa using h)]
    rfl

theorem getD_app_rep {a b x y i : Nat} :
    (List.replicate a x ++ List.replicate b y).getD i 0 =
      if i < a then x else if i < a + b then y else 0 := by
  rw [List.getD_eq_getElem?_getD]
  by_cases h1 : i < a
  · rw [if_pos h1, List.getElem?_append_left (by simpa using h1),
      List.getElem?_replicate_of_lt h1]
    rfl
  · rw [if_neg h1, List.getElem?_append_right (by simpa using h1)]
    simp only [List.length_replicate]
    by_cases h2 : i < a + b
    · rw [if_pos h2, List.getElem?_replicate_of_lt (by omega)]
      rfl
    · rw [if_neg h2, List.getElem?_eq_none (by simp; omega)]
      rfl

/-! ## Matching a run of equal bytes against block-structured haystacks -/

theorem matchAtB_rep_iff {a b L x y p : Nat} (hxy : x ≠ y) (hL : 1 ≤ L) :
    matchAtB (List.replicate a x ++ List.replicate b y) (List.replicate L y) p = true ↔
      a ≤ p ∧ p + L ≤ a + b := by
  rw [matchAtB_iff]
  simp only [List.length_append, List.length_replicate]
  constructor
  · rintro ⟨h1, h2⟩
    refine ⟨?_, h1⟩
    by_contra hpa
    have h0 := h2 0 (by omega)
    rw [getD_app_rep, getD_rep, if_pos (by omega), if_pos (by omega)] at h0
    exact hxy h0
  · rintro ⟨h1, h2⟩
    refine ⟨h2, ?_⟩
    intro k hk
    rw [getD_app_rep, getD_rep, if_neg (by omega), if_pos (by omega), if_pos hk]

theorem matchAtB_rep_false {a b L x y p : Nat} (hxy : x ≠ y) (hL : 1 ≤ L)
    (h : ¬ (a ≤ p ∧ p + L ≤ a + b)) :
    matchAtB (List.replicate a x ++ List.replicate b y) (List.replicate L y) p = false := by
  cases hmb : matchAtB (List.replicate a x ++ List.replicate b y) (List.replicate L y) p
  · rfl
  · exact absurd ((matchAtB_rep_iff hxy hL).mp hmb) h

theorem firstMatchFrom_rep {a b L x y s : Nat} (hxy : x ≠ y) (hL : 1 ≤ L) :
    firstMatchFrom (List.replicate a x ++ List.replicate b y) (List.replicate L y) s =
      if max s a + L ≤ a + b then some (max s a) else none := by
  by_cases h : max s a + L ≤ a + b
  · rw [if_pos h, firstMatchFrom_some_iff]
    refine ⟨by omega, (matchAtB_rep_iff hxy hL).mpr ⟨by omega, h⟩, ?_⟩
    intro q hq1 hq2
    exact matchAtB_rep_false hxy hL (by omega)
  · rw [if_neg h, firstMatchFrom_none_iff]
    intro q hq
    exact matchAtB_rep_false hxy hL (by omega)

theorem matchAtB_rep0_iff {b L y p : Nat} (hL : 1 ≤ L) :
    matchAtB (List.replicate b y) (List.replicate L y) p = true ↔ p + L ≤ b := by
  rw [matchAtB_iff]
  simp only [List.length_replicate]
  constructor
  · rintro ⟨h1, _⟩
    exact h1
  · intro h1
    refine ⟨h1, ?_⟩
    intro k hk
    rw [getD_rep, getD_rep, if_pos (by omega), if_pos hk]

theorem matchAtB_rep0_false {b L y p : Nat} (hL : 1 ≤ L) (h : ¬ p + L ≤ b) :
    matchAtB (List.replicate b y) (List.replicate L y) p = false := by
  cases hmb : matchAtB (List.replicate b y) (List.replicate L y) p
  · rfl
  · exact absurd ((matchAtB_rep0_iff hL).mp hmb) h

theorem firstMatchFrom_rep0 {b L y s : Nat} (hL : 1 ≤ L) :
    firstMatchFrom (List.replicate b y) (List.replicate L y) s =
      if s + L ≤ b then some s else none := by
  by_cases h : s + L ≤ b
  · rw [if_pos h, firstMatchFrom_some_iff]
    refine ⟨le_refl _, (matchAtB_rep0_iff hL).mpr h, ?_⟩
    intro q hq1 hq2
    omega
  · rw [if_neg h, firstMatchFrom_none_iff]
    intro q hq
    exact matchAtB_rep0_false hL (by omega)


/-! ## Unfolding the streaming loop -/

theorem streamLoopF_succ {needle : Needle} {fuel : Nat} {r : GoReader}
    {window : List Nat} {used offset : Nat} :
    streamLoopF needle (fuel+1) r window used offset =
      Event.readCall (readChunk r (buffSize - used)).count ::
        (if 0 < (readChunk r (buffSize - used)).count ∧
            used + (readChunk r (buffSize - used)).count < buffSize then
          streamLoopF needle fuel (readChunk r (buffSize - used)).rest
            (window ++ (readChunk r (buffSize - used)).chunk)
            (used + (readChunk r (buffSize - used)).count) offset
        else if 0 < (readChunk r (buffSize - used)).count ∨
            (readChunk r (buffSize - used)).isEOF then
          (scanEmitsF (window ++ (readChunk r (buffSize - used)).chunk) needle
              (used + (readChunk r (buffSize - used)).count) offset
              (used + (readChunk r (buffSize - used)).count + 1) 0).map Event.emit ++
            (if (readChunk r (buffSize - used)).isEOF then [Event.close]
             else
              if used + (readChunk r (buffSize - used)).count <
                  uadd (usub (used + (readChunk r (buffSize - used)).count)
                    needle.length) 1 then [Event.panicSlice]
              else
                streamLoopF needle fuel (readChunk r (buffSize - used)).rest
                  ((window ++ (readChunk r (buffSize - used)).chunk).drop
                    (uadd (usub (used + (readChunk r (buffSize - used)).count)
                      needle.length) 1))
                  (usub needle.length 1)
                  (uadd offset (usub (usub (used + (readChunk r (buffSize - used)).count)
                    needle.length) 1)))
        else [Event.emit ⟨errorOffset, none⟩, Event.close]) := rfl

theorem streamLoopF_step {needle : Needle} {fuel : Nat} {r : GoReader}
    {window : List Nat} {used offset : Nat} {ck : List Nat} {cnt : Nat}
    {r' : GoReader} {eof : Bool}
    (hread : readChunk r (buffSize - used) = ⟨ck, cnt, r', eof⟩) :
    streamLoopF needle (fuel+1) r window used offset =
      Event.readCall cnt ::
        (if 0 < cnt ∧ used + cnt < buffSize then
          streamLoopF needle fuel r' (window ++ ck) (used + cnt) offset
        else if 0 < cnt ∨ eof then
          (scanEmitsF (window ++ ck) needle (used + cnt) offset
              (used + cnt + 1) 0).map Event.emit ++
            (if eof then [Event.close]
             else
              if used + cnt < uadd (usub (used + cnt) needle.length) 1 then
                [Event.panicSlice]
              else
                streamLoopF needle fuel r'
                  ((window ++ ck).drop (uadd (usub (used + cnt) needle.length) 1))
                  (usub needle.length 1)
                  (uadd offset (usub (usub (used + cnt) needle.length) 1)))
        else [Event.emit ⟨errorOffset, none⟩, Event.close]) := by
  rw [streamLoopF_succ, hread]

/-- `scanEmitsF` with the `used` argument given as a value equal to the
window's length. -/
theorem scanEmitsF_eq_val {W P : List Nat} {used offset fuel start : Nat}
    (hP : 1 ≤ P.length) (hsize : W.length + 2 * P.length ≤ U32)
    (hu : used = W.length) (hfuel : W.length < start + fuel)
    (hstart : start ≤ W.length) :
    scanEmitsF W (NewNeedleBytes P) used offset fuel start =
      (naiveMatchesFrom W P start).map (fun p => ⟨uadd offset p, none⟩) := by
  subst hu
  exact scanEmitsF_eq hP hsize fuel start hfuel hstart

/-! ## Evaluating individual read calls -/

theorem readChunk_eof {r : GoReader} (h : r.dataLen = 0) {cap : Nat} :
    readChunk r cap = ⟨[], 0, r, true⟩ := by
  unfold readChunk
  rw [if_pos h]

theorem readChunk_carry1 :
    readChunk ⟨List.replicate 4032 0 ++ List.replicate 65 1, 4097, []⟩
        (buffSize - 0) =
      ⟨List.replicate 4032 0 ++ List.replicate 64 1, 4096, ⟨[1], 1, []⟩, false⟩ := by
  have htake : (List.replicate 4032 (0:Nat) ++ List.replicate 65 1).take 4096 =
      List.replicate 4032 0 ++ List.replicate 64 1 := by
    rw [@take_app Nat (List.replicate 4032 0) (List.replicate 65 1) 4096
      (by rw [List.length_replicate]; omega)]
    rw [List.length_replicate]
    rw [show (4096:Nat) - 4032 = 64 from by norm_num]
    rw [@take_rep Nat 1 64 65 (by norm_num)]
  have hdrop : (List.replicate 4032 (0:Nat) ++ List.replicate 65 1).drop 4096 =
      [1] := by
    rw [@drop_app Nat (List.replicate 4032 0) (List.replicate 65 1) 4096
      (by rw [List.length_replicate]; omega)]
    rw [List.length_replicate]
    rw [show (4096:Nat) - 4032 = 64 from by norm_num]
    rw [@drop_rep Nat 1 64 65 (by norm_num)]
    rfl
  unfold readChunk
  rw [if_neg (by norm_num)]
  show (⟨_, _, ⟨_, _, _⟩, _⟩ : ReadRes) = _
  rw [show min (buffSize - 0) 4097 = 4096 from by norm_num [buffSize]]
  rw [htake, hdrop]
  rfl

theorem readChunk_carry2 :
    readChunk ⟨[1], 1, []⟩ (buffSize - 63) =
      ⟨[1], 1, ⟨[], 0, []⟩, false⟩ := by
  unfold readChunk
  rw [if_neg (by norm_num)]
  show (⟨_, _, ⟨_, _, _⟩, _⟩ : ReadRes) = _
  rw [show min (buffSize - 63) 1 = 1 from by norm_num [buffSize]]
  rfl

/-! ## The in-memory result on the carryover input -/

theorem indexesOf_hayCarry :
    IndexesOf hayCarry needleOnes = [⟨4032, none⟩, ⟨4033, none⟩] := by
  have hlen : hayCarry.length = 4097 := by
    rw [show hayCarry = List.replicate 4032 0 ++ List.replicate 65 1 from rfl,
      List.length_append, List.length_replicate, List.length_replicate]
  have hno : needleOnes.length = 64 := by
    rw [show needleOnes = List.replicate 64 1 from rfl, List.length_replicate]
  rw [IndexesOf_eq_naiveMatches (by decide)
    (by rw [hlen, hno]; norm_num [U32])]
  rw [← naiveMatchesFrom_zero]
  rw [show hayCarry = List.replicate 4032 0 ++ List.replicate 65 1 from rfl,
    show needleOnes = List.replicate 64 1 from rfl]
  have hf0 : firstMatchFrom (List.replicate 4032 (0:Nat) ++ List.replicate 65 1)
      (List.replicate 64 1) 0 = some 4032 := by
    rw [@firstMatchFrom_rep 4032 65 64 0 1 0 (by norm_num) (by norm_num)]
    norm_num
  have hf1 : firstMatchFrom (List.replicate 4032 (0:Nat) ++ List.replicate 65 1)
      (List.replicate 64 1) (4032 + 1) = some 4033 := by
    rw [@firstMatchFrom_rep 4032 65 64 0 1 (4032+1) (by norm_num) (by norm_num)]
    norm_num
  have hf2 : firstMatchFrom (List.replicate 4032 (0:Nat) ++ List.replicate 65 1)
      (List.replicate 64 1) (4033 + 1) = none := by
    rw [@firstMatchFrom_rep 4032 65 64 0 1 (4033+1) (by norm_num) (by norm_num)]
    norm_num
  rw [naiveMatchesFrom_eq_cons hf0, naiveMatchesFrom_eq_cons hf1,
    naiveMatchesFrom_eq_nil hf2]
  rfl

/-! ## The streaming run on the carryover input -/

theorem streamCarry_trace :
    IndexesWithinReaderBytes ⟨hayCarry, 4097, []⟩ needleOnes =
      [Event.readCall 4096, Event.emit ⟨4032, none⟩, Event.readCall 1,
       Event.readCall 0, Event.emit ⟨4031, none⟩, Event.close] := by
  have hLen64 : (NewNeedleBytes (List.replicate 64 1)).length = 64 := by
    show (List.replicate (64:Nat) 1).length % U32 = 64
    rw [List.length_replicate]
    norm_num [U32]
  have hA : usub 4096 64 = 4032 := by decide
  have hB : uadd 4032 1 = 4033 := by decide
  have hC : usub 4032 1 = 4031 := by decide
  have hD : uadd 0 4031 = 4031 := by decide
  have hE : usub 64 1 = 63 := by decide
  have hF : uadd 0 4032 = 4032 := by decide
  have hG : uadd 4031 0 = 4031 := by decide
  have hW1len : (List.replicate 4032 (0:Nat) ++ List.replicate 64 1).length = 4096 := by
    rw [List.length_append, List.length_replicate, List.length_replicate]
  -- first scan: one match at 4032
  have hf0 : firstMatchFrom (List.replicate 4032 (0:Nat) ++ List.replicate 64 1)
      (List.replicate 64 1) 0 = some 4032 := by
    rw [@firstMatchFrom_rep 4032 64 64 0 1 0 (by norm_num) (by norm_num)]
    norm_num
  have hf1 : firstMatchFrom (List.replicate 4032 (0:Nat) ++ List.replicate 64 1)
      (List.replicate 64 1) (4032 + 1) = none := by
    rw [@firstMatchFrom_rep 4032 64 64 0 1 (4032+1) (by norm_num) (by norm_num)]
    norm_num
  have hn1 : naiveMatchesFrom (List.replicate 4032 (0:Nat) ++ List.replicate 64 1)
      (List.replicate 64 1) 0 = [4032] := by
    rw [naiveMatchesFrom_eq_cons hf0, naiveMatchesFrom_eq_nil hf1]
  have hscan1 : scanEmitsF (List.replicate 4032 (0:Nat) ++ List.replicate 64 1)
      (NewNeedleBytes (List.replicate 64 1)) 4096 0 (4096 + 1) 0 =
      [⟨4032, none⟩] := by
    rw [@scanEmitsF_eq_val (List.replicate 4032 0 ++ List.replicate 64 1)
      (List.replicate 64 1) 4096 0 (4096 + 1) 0
      (by rw [List.length_replicate]; omega)
      (by rw [hW1len, List.length_replicate]; norm_num [U32])
      hW1len.symm (by rw [hW1len]; norm_num) (by rw [hW1len]; norm_num)]
    rw [hn1]
    simp only [List.map_cons, List.map_nil]
    rw [hF]
  -- second scan: one match at 0
  have hg0 : firstMatchFrom (List.replicate 64 (1:Nat)) (List.replicate 64 1) 0 =
      some 0 := by
    rw [@firstMatchFrom_rep0 64 64 1 0 (by norm_num)]
    norm_num
  have hg1 : firstMatchFrom (List.replicate 64 (1:Nat)) (List.replicate 64 1)
      (0 + 1) = none := by
    rw [@firstMatchFrom_rep0 64 64 1 (0+1) (by norm_num)]
    norm_num
  have hn2 : naiveMatchesFrom (List.replicate 64 (1:Nat)) (List.replicate 64 1) 0 =
      [0] := by
    rw [naiveMatchesFrom_eq_cons hg0, naiveMatchesFrom_eq_nil hg1]
  have hrep64 : (List.replicate 64 (1:Nat)).length = 64 := by
    rw [List.length_replicate]
  have hscan2 : scanEmitsF (List.replicate 64 (1:Nat))
      (NewNeedleBytes (List.replicate 64 1)) 64 4031 (64 + 1) 0 =
      [⟨4031, none⟩] := by
    rw [@scanEmitsF_eq_val (List.replicate 64 1) (List.replicate 64 1) 64 4031
      (64 + 1) 0 (by rw [List.length_replicate]; omega)
      (by rw [hrep64]; norm_num [U32])
      hrep64.symm (by rw [hrep64]; norm_num) (by rw [hrep64]; norm_num)]
    rw [hn2]
    simp only [List.map_cons, List.map_nil]
    rw [hG]
  -- the carried-over window
  have hwin1 : (List.replicate 4032 (0:Nat) ++ List.replicate 64 1).drop 4033 =
      List.replicate 63 1 := by
    rw [@drop_app Nat (List.replicate 4032 0) (List.replicate 64 1) 4033
      (by rw [List.length_replicate]; norm_num)]
    rw [List.length_replicate]
    rw [show (4033:Nat) - 4032 = 1 from by norm_num,
      @drop_rep Nat 1 1 64 (by norm_num)]
  -- unfold the run
  rw [show needleOnes = List.replicate 64 1 from rfl,
    show hayCarry = List.replicate 4032 0 ++ List.replicate 65 1 from rfl]
  unfold IndexesWithinReaderBytes IndexesWithinReaderNeedle indexesWithinReaderHelp
  rw [hLen64, if_neg (by omega), List.nil_append]
  show streamLoopF _ (4097 + 2) _ [] 0 0 = _
  rw [show (4097:Nat) + 2 = 4098 + 1 from by norm_num]
  -- iteration 1: full read, scan, carry over
  rw [streamLoopF_step readChunk_carry1]
  rw [if_neg (by norm_num [buffSize]), if_pos (by norm_num)]
  rw [List.nil_append]
  simp only [Nat.zero_add]
  rw [hLen64, hA, hB]
  rw [if_neg (by simp), if_neg (by norm_num)]
  rw [hC, hD, hE, hwin1, hscan1]
  -- iteration 2: accumulate the last byte
  rw [show (4098:Nat) = 4097 + 1 from by norm_num]
  rw [streamLoopF_step readChunk_carry2]
  rw [if_pos (by norm_num [buffSize])]
  rw [rep_append_one, show (63:Nat) + 1 = 64 from by norm_num]
  -- iteration 3: EOF, final scan, close
  rw [show (4097:Nat) = 4096 + 1 from by norm_num]
  rw [streamLoopF_step (readChunk_eof rfl)]
  rw [if_neg (by simp), if_pos (by simp)]
  rw [List.append_nil]
  simp only [Nat.add_zero]
  rw [hscan2, if_pos trivial]
  rfl


/-! ## The streaming run with a needle longer than the window -/

theorem needleLong_drop : needleLong.drop 4096 = [3] := by
  rw [show needleLong = 2 :: (List.replicate 4095 1 ++ [3]) from rfl]
  rw [show (4096:Nat) = 4095 + 1 from by norm_num, List.drop_succ_cons]
  rw [@drop_app Nat (List.replicate 4095 1) [3] 4095
    (by rw [List.length_replicate])]
  rw [List.length_replicate]
  rw [show (4095:Nat) - 4095 = 0 from by norm_num, List.drop_zero]

theorem readChunk_long1 :
    readChunk ⟨needleLong, 4097, []⟩ (buffSize - 0) =
      ⟨needleLong.take 4096, 4096, ⟨[3], 1, []⟩, false⟩ := by
  unfold readChunk
  rw [if_neg (by norm_num)]
  show (⟨_, _, ⟨_, _, _⟩, _⟩ : ReadRes) = _
  rw [show min (buffSize - 0) 4097 = 4096 from by norm_num [buffSize]]
  rw [show List.drop 4096 needleLong = [3] from needleLong_drop]
  rfl

theorem readChunk_long2 :
    readChunk ⟨[3], 1, []⟩ (buffSize - 4096) =
      ⟨[], 0, ⟨[3], 1, []⟩, false⟩ := by
  unfold readChunk
  rw [if_neg (by norm_num)]
  show (⟨_, _, ⟨_, _, _⟩, _⟩ : ReadRes) = _
  rw [show min (buffSize - 4096) 1 = 0 from by norm_num [buffSize]]
  rw [List.take_zero, List.drop_zero]
  rfl

theorem streamLong_trace :
    IndexesWithinReaderBytes ⟨needleLong, 4097, []⟩ needleLong =
      [Event.readCall 4096, Event.readCall 0,
       Event.emit ⟨errorOffset, none⟩, Event.close] := by
  have hlenNL : needleLong.length = 4097 := by
    rw [show needleLong = 2 :: (List.replicate 4095 1 ++ [3]) from rfl,
      List.length_cons, List.length_append, List.length_replicate,
      List.length_singleton]
  have hLenL : (NewNeedleBytes needleLong).length = 4097 := by
    show needleLong.length % U32 = 4097
    rw [hlenNL]
    norm_num [U32]
  have hA : usub 4097 1 = 4096 := by decide
  have hB : uadd 4096 0 = 4096 := by decide
  have hC : usub 4096 4097 = 4294967295 := by decide
  have hD : uadd 4294967295 1 = 0 := by decide
  have hE : usub 4294967295 1 = 4294967294 := by decide
  have hF : uadd 0 4294967294 = 4294967294 := by decide
  have hscanL : scanEmitsF (needleLong.take 4096) (NewNeedleBytes needleLong)
      4096 0 (4096 + 1) 0 = [] := by
    rw [scanEmitsF_succ]
    have hIdx : indexOfHelper (needleLong.take 4096) (NewNeedleBytes needleLong)
        4096 0 = errorOffset := by
      unfold indexOfHelper
      rw [hLenL, hA, hB, indexOfLoopF_succ, if_neg (by omega)]
      rfl
    rw [hIdx, if_pos rfl]
  unfold IndexesWithinReaderBytes IndexesWithinReaderNeedle indexesWithinReaderHelp
  rw [hLenL, if_neg (by omega), List.nil_append]
  show streamLoopF _ (4097 + 2) _ [] 0 0 = _
  rw [show (4097:Nat) + 2 = 4098 + 1 from by norm_num]
  -- iteration 1: full read, empty scan, wrapped carryover
  rw [streamLoopF_step readChunk_long1]
  rw [if_neg (by norm_num [buffSize]), if_pos (by norm_num)]
  rw [List.nil_append]
  simp only [Nat.zero_add]
  rw [hLenL, hC, hD]
  rw [if_neg (by simp), if_neg (by omega)]
  rw [hA, hE, hF, hscanL, List.drop_zero]
  -- iteration 2: zero-byte read without EOF: error result and close
  rw [show (4098:Nat) = 4097 + 1 from by norm_num]
  rw [streamLoopF_step readChunk_long2]
  rw [if_neg (by simp), if_neg (by simp)]
  rfl


/-! ## One-step unfolding of the inner comparison loop -/

theorem scanBack_succ {H : List Nat} {needle : Needle} {i j : Nat} :
    scanBack H needle i (j+1) =
      (if needle.bytes.getD (j+1) 0 == H.getD i 0 then
        scanBack H needle (i-1) j
      else .mismatch i (j+1)) := rfl

/-! ## The matcher can fail to terminate on a wrap-around orbit -/

theorem hayHuge_getD {i : Nat} : hayHuge.getD i 0 = 0 := by
  rw [show hayHuge = List.replicate (U32 - 1) 0 from rfl, getD_rep]
  exact ite_self 0

theorem needleLoop_len : (NewNeedleBytes needleLoop).length = 6 := by decide

theorem needleLoop_byte5 : (NewNeedleBytes needleLoop).bytes.getD 5 0 = 2 := by
  decide

theorem needleLoop_OT0 : (NewNeedleBytes needleLoop).offsetTable.getD 0 0 = 1 := by
  decide

theorem needleLoop_CT0 : (NewNeedleBytes needleLoop).charTable 0 = 4 := by decide

theorem indexOfLoopF_hayHuge_none :
    ∀ fuel i, i % 4 = 1 → i < U32 →
      indexOfLoopF hayHuge (NewNeedleBytes needleLoop) (U32 - 1) fuel i = none := by
  intro fuel
  induction fuel with
  | zero => intro i _ _; rfl
  | succ fuel ih =>
    intro i h4 hU
    have hUval : U32 = 4294967296 := rfl
    have hU' : i < 4294967296 := hUval ▸ hU
    have hiLt : i < U32 - 1 := by rw [hUval]; omega
    rw [indexOfLoopF_succ, if_pos hiLt]
    have hsb : scanBack hayHuge (NewNeedleBytes needleLoop) i
        (usub (NewNeedleBytes needleLoop).length 1) = .mismatch i 5 := by
      rw [show usub (NewNeedleBytes needleLoop).length 1 = 5 from by decide]
      rw [scanBack_succ, needleLoop_byte5, hayHuge_getD]
      rw [if_neg (by decide)]
    rw [hsb]
    show indexOfLoopF hayHuge (NewNeedleBytes needleLoop) (U32 - 1) fuel
      (uadd i (max ((NewNeedleBytes needleLoop).offsetTable.getD
        (usub (usub (NewNeedleBytes needleLoop).length 1) 5) 0)
        ((NewNeedleBytes needleLoop).charTable (hayHuge.getD i 0)))) = none
    rw [show usub (usub (NewNeedleBytes needleLoop).length 1) 5 = 0 from by decide,
      needleLoop_OT0, hayHuge_getD, needleLoop_CT0,
      show max 1 4 = 4 from by decide]
    have huadd : uadd i 4 = (i + 4) % U32 := rfl
    refine ih (uadd i 4) ?_ ?_
    · rw [huadd, hUval]
      omega
    · rw [huadd]
      exact Nat.mod_lt _ U32_pos

theorem indexOf_hayHuge_diverges :
    ¬ indexOfTerminates hayHuge (NewNeedleBytes needleLoop) (U32 - 1) 0 := by
  rintro ⟨fuel, hsome⟩
  rw [show uadd (usub (NewNeedleBytes needleLoop).length 1) 0 = 5 from by decide]
    at hsome
  rw [indexOfLoopF_hayHuge_none fuel 5 (by norm_num) (by norm_num [U32])] at hsome
  simp at hsome

/-! ## Termination when sizes stay below the uint32 range -/

theorem indexOfTerminates_of_size {H P : List Nat} {skip : Nat} (hP : 1 ≤ P.length)
    (hsize : H.length + 2 * P.length ≤ U32) (hskip : skip ≤ H.length) :
    indexOfTerminates H (NewNeedleBytes P) H.length skip := by
  refine ⟨H.length + 1, ?_⟩
  have hnl : (NewNeedleBytes P).length = P.length := Nat.mod_eq_of_lt (by omega)
  have husub : usub (NewNeedleBytes P).length 1 = P.length - 1 := by
    rw [hnl]
    exact usub_eq (by omega) (by omega)
  have huadd : uadd (P.length - 1) skip = P.length - 1 + skip := by
    apply uadd_eq
    omega
  rw [husub, huadd]
  rw [indexOfLoopF_eq hP hsize (H.length + 1) (P.length - 1 + skip) (by omega)
    (by omega) (by omega) (by omega)]
  rfl

/-! ## The empty-needle traces -/

theorem streamEmpty_trace :
    IndexesWithinReaderBytes ⟨[], 0, []⟩ [] =
      [Event.emit ⟨errorOffset, some .emptyNeedle⟩, Event.close,
       Event.readCall 0, Event.close] := by decide

theorem indexesOf_emptyNeedle :
    IndexesOf [7] [] = [⟨errorOffset, some .emptyNeedle⟩] := by decide

theorem indexOfResults_emptyNeedle :
    IndexOfResults [7] [] = [⟨errorOffset, some .emptyNeedle⟩] := by decide

/-! ## The uint32 truncation on a 4 GiB haystack -/

theorem hayWrap_len : hayWrap.length = U32 + 2 := by
  rw [show hayWrap = List.replicate U32 0 ++ [1, 1] from rfl,
    List.length_append, List.length_replicate]
  rfl

theorem hayWrap_getD_low {i : Nat} (h : i < U32) : hayWrap.getD i 0 = 0 := by
  rw [show hayWrap = List.replicate U32 0 ++ [1, 1] from rfl,
    List.getD_eq_getElem?_getD,
    List.getElem?_append_left (by rw [List.length_replicate]; omega),
    List.getElem?_replicate_of_lt h]
  rfl

theorem hayWrap_getD_hi {k : Nat} : hayWrap.getD (U32 + k) 0 = [1, 1].getD k 0 := by
  rw [show hayWrap = List.replicate U32 0 ++ [1, 1] from rfl,
    List.getD_eq_getElem?_getD,
    List.getElem?_append_right (by rw [List.length_replicate]; omega),
    List.length_replicate, show U32 + k - U32 = k from by omega,
    ← List.getD_eq_getElem?_getD]

theorem matchAt_hayWrap : matchAtB hayWrap [1, 1] U32 = true := by
  rw [matchAtB_iff]
  constructor
  · rw [hayWrap_len]
    exact le_of_eq rfl
  · intro k _
    exact hayWrap_getD_hi

theorem indexesOf_hayWrap : IndexesOf hayWrap [1, 1] = [] := by
  have hN2 : (NewNeedleBytes [1, 1]).length = 2 := by decide
  have hIdx : indexOfHelper hayWrap (NewNeedleBytes [1, 1]) 2 0 = errorOffset := by
    unfold indexOfHelper
    rw [hN2, show uadd (usub 2 1) 0 = 1 from by decide]
    rw [indexOfLoopF_succ, if_pos (by omega)]
    have hsb : scanBack hayWrap (NewNeedleBytes [1, 1]) 1 (usub 2 1) =
        .mismatch 1 1 := by
      rw [show usub (2:Nat) 1 = 1 from by decide]
      rw [scanBack_succ,
        show (NewNeedleBytes [1, 1]).bytes.getD 1 0 = 1 from by decide,
        hayWrap_getD_low (by norm_num [U32])]
      rw [if_neg (by decide)]
    rw [hN2, hsb]
    show (indexOfLoopF hayWrap (NewNeedleBytes [1, 1]) 2 2
      (uadd 1 (max ((NewNeedleBytes [1, 1]).offsetTable.getD (usub (usub 2 1) 1) 0)
        ((NewNeedleBytes [1, 1]).charTable (hayWrap.getD 1 0))))).getD errorOffset =
      errorOffset
    rw [hayWrap_getD_low (by norm_num [U32]),
      show usub (usub (2:Nat) 1) 1 = 0 from by decide,
      show (NewNeedleBytes [1, 1]).offsetTable.getD 0 0 = 2 from by decide,
      show (NewNeedleBytes [1, 1]).charTable 0 = 2 from by decide,
      show max 2 2 = 2 from by decide,
      show uadd 1 2 = 3 from by decide]
    rw [show (2:Nat) = 1 + 1 from rfl, indexOfLoopF_succ, if_neg (by omega)]
    rfl
  have hmod : hayWrap.length % U32 = 2 := by
    rw [hayWrap_len, show U32 = 4294967296 from rfl]
  simp only [IndexesOf]
  rw [hN2, if_neg (by omega), hmod, List.nil_append]
  rw [show (2:Nat) + 1 = 2 + 1 from rfl, indexesOfLoopF_succ, hIdx, if_pos rfl]


/-! ## The boundary-carryover step -/

theorem naiveMatchesFrom_le {H P : List Nat} {s p : Nat}
    (h : p ∈ naiveMatchesFrom H P s) : p ≤ H.length := by
  unfold naiveMatchesFrom at h
  rw [List.mem_filter] at h
  obtain ⟨hmem, _⟩ := h
  rw [List.mem_range'] at hmem
  obtain ⟨i, hi, hp⟩ := hmem
  omega

theorem carryover_step {P : List Nat} {fuel : Nat} {r r' : GoReader}
    {window ck : List Nat} {used cnt offset : Nat}
    (hread : readChunk r (buffSize - used) = ⟨ck, cnt, r', false⟩)
    (hcnt : 0 < cnt) (hfull : used + cnt = buffSize)
    (hwlen : (window ++ ck).length = buffSize)
    (hL1 : 1 ≤ P.length) (hL2 : P.length < buffSize)
    (hoff : offset + buffSize < U32) :
    streamLoopF (NewNeedleBytes P) (fuel+1) r window used offset =
      Event.readCall cnt ::
        ((naiveMatchesFrom (window ++ ck) P 0).map
            (fun p => Event.emit ⟨offset + p, none⟩) ++
          streamLoopF (NewNeedleBytes P) fuel r'
            ((window ++ ck).drop ((window ++ ck).length - (P.length - 1)))
            (P.length - 1)
            (offset + (buffSize - P.length - 1))) := by
  have hBS : buffSize = 4096 := rfl
  have hUval : U32 = 4294967296 := rfl
  have hNL : (NewNeedleBytes P).length = P.length := Nat.mod_eq_of_lt (by omega)
  have h1 : usub (used + cnt) P.length = buffSize - P.length := by
    rw [hfull]
    exact usub_eq (by omega) (by omega)
  have h2 : uadd (buffSize - P.length) 1 = buffSize - P.length + 1 :=
    uadd_eq (by omega)
  have h3 : usub (buffSize - P.length) 1 = buffSize - P.length - 1 :=
    usub_eq (by omega) (by omega)
  have h4 : uadd offset (buffSize - P.length - 1) =
      offset + (buffSize - P.length - 1) := uadd_eq (by omega)
  have h5 : usub P.length 1 = P.length - 1 := usub_eq (by omega) (by omega)
  rw [streamLoopF_step hread]
  rw [if_neg (by omega), if_pos (Or.inl hcnt)]
  rw [if_neg (by simp)]
  rw [hNL, h1, h2]
  rw [if_neg (by omega)]
  rw [h3, h4, h5]
  rw [@scanEmitsF_eq_val (window ++ ck) P (used + cnt) offset (used + cnt + 1) 0
    hL1 (by omega) (by omega) (by omega) (by omega)]
  have hmm : ((naiveMatchesFrom (window ++ ck) P 0).map
      (fun p => (⟨uadd offset p, none⟩ : GoResult))).map Event.emit =
      (naiveMatchesFrom (window ++ ck) P 0).map
        (fun p => Event.emit ⟨offset + p, none⟩) := by
    rw [List.map_map]
    refine List.map_congr_left (fun p hp => ?_)
    have hple : p ≤ (window ++ ck).length := naiveMatchesFrom_le hp
    show Event.emit ⟨uadd offset p, none⟩ = Event.emit ⟨offset + p, none⟩
    rw [uadd_eq (by omega)]
  rw [hmm]
  rw [show buffSize - P.length + 1 =
    (window ++ ck).length - (P.length - 1) from by omega]

/-! ## The good-suffix table equals its two-pass description -/

theorem pass1_eq_claim {needle : List Nat} (h1 : 1 ≤ needle.length)
    (hsmall : 2 * needle.length ≤ U32) :
    offsetPass1 needle needle.length (needle.length - 1) = claimPass1 needle := by
  have hinit : offsetPass1 needle needle.length (needle.length - 1) =
      offsetPass1 needle (lppDecl needle ((needle.length - 1) + 2))
        (needle.length - 1) := by
    rw [lppDecl_of_gt (by omega)]
  rw [hinit, offsetPass1_eq (needle.length - 1) (by omega)]
  unfold claimPass1
  rw [show needle.length - 1 + 1 = needle.length from by omega]
  apply List.map_congr_left
  intro m hm
  have hmL : m < needle.length := by
    rw [List.mem_reverse, List.mem_range] at hm
    exact hm
  obtain ⟨hlpp1, hlpp2, _, _⟩ := @lppDecl_spec needle (m+1) (by omega)
  exact Nat.mod_eq_of_lt (by omega)

theorem makeOffsetTable_eq_claim {needle : List Nat} (h1 : 1 ≤ needle.length)
    (hsmall : 2 * needle.length ≤ U32) :
    makeOffsetTable needle = claimOffsetTable needle := by
  simp only [makeOffsetTable, claimOffsetTable]
  rw [if_neg (by omega)]
  rw [pass1_eq_claim h1 hsmall]
  have hfold : ∀ (l : List Nat), (∀ i ∈ l, i < needle.length - 1) → ∀ (t1 : List Nat),
      l.foldl (fun t i => t.set (suffixLength needle i)
        ((needle.length - 1 - i + suffixLength needle i) % U32)) t1 =
      l.foldl (fun t i => t.set (slDecl needle i)
        (needle.length - 1 - i + slDecl needle i)) t1 := by
    intro l
    induction l with
    | nil => intro _ t1; rfl
    | cons a l ih =>
      intro hmem t1
      rw [List.foldl_cons, List.foldl_cons]
      have hsl : suffixLength needle a = slDecl needle a := suffixLength_eq_slDecl
      have hbound : suffixLength needle a ≤ a + 1 := (suffixLength_spec a).1
      have haL : a < needle.length - 1 := hmem a (List.mem_cons_self a l)
      have hmod : (needle.length - 1 - a + slDecl needle a) % U32 =
          needle.length - 1 - a + slDecl needle a :=
        Nat.mod_eq_of_lt (by omega)
      rw [hsl, hmod]
      exact ih (fun i hi => hmem i (List.mem_cons_of_mem a hi)) _
  exact hfold (List.range (needle.length - 1))
    (fun i hi => List.mem_range.mp hi) _


/-! ## The truncation counterexample on a second 4 GiB haystack -/

theorem hayWrap2_len : hayWrap2.length = U32 + 2 := by
  rw [show hayWrap2 = List.replicate U32 0 ++ [2, 2] from rfl,
    List.length_append, List.length_replicate]
  rfl

theorem hayWrap2_getD_low {i : Nat} (h : i < U32) : hayWrap2.getD i 0 = 0 := by
  rw [show hayWrap2 = List.replicate U32 0 ++ [2, 2] from rfl,
    List.getD_eq_getElem?_getD,
    List.getElem?_append_left (by rw [List.length_replicate]; omega),
    List.getElem?_replicate_of_lt h]
  rfl

theorem hayWrap2_getD_hi {k : Nat} : hayWrap2.getD (U32 + k) 0 = [2, 2].getD k 0 := by
  rw [show hayWrap2 = List.replicate U32 0 ++ [2, 2] from rfl,
    List.getD_eq_getElem?_getD,
    List.getElem?_append_right (by rw [List.length_replicate]; omega),
    List.length_replicate, show U32 + k - U32 = k from by omega,
    ← List.getD_eq_getElem?_getD]

theorem matchAt_hayWrap2 : matchAtB hayWrap2 [2, 2] U32 = true := by
  rw [matchAtB_iff]
  constructor
  · rw [hayWrap2_len]
    exact le_of_eq rfl
  · intro k _
    exact hayWrap2_getD_hi

theorem indexesOf_hayWrap2 : IndexesOf hayWrap2 [2, 2] = [] := by
  have hN2 : (NewNeedleBytes [2, 2]).length = 2 := by decide
  have hIdx : indexOfHelper hayWrap2 (NewNeedleBytes [2, 2]) 2 0 = errorOffset := by
    unfold indexOfHelper
    rw [hN2, show uadd (usub 2 1) 0 = 1 from by decide]
    rw [indexOfLoopF_succ, if_pos (by omega)]
    have hsb : scanBack hayWrap2 (NewNeedleBytes [2, 2]) 1 (usub 2 1) =
        .mismatch 1 1 := by
      rw [show usub (2:Nat) 1 = 1 from by decide]
      rw [scanBack_succ,
        show (NewNeedleBytes [2, 2]).bytes.getD 1 0 = 2 from by decide,
        hayWrap2_getD_low (by norm_num [U32])]
      rw [if_neg (by decide)]
    rw [hN2, hsb]
    show (indexOfLoopF hayWrap2 (NewNeedleBytes [2, 2]) 2 2
      (uadd 1 (max ((NewNeedleBytes [2, 2]).offsetTable.getD (usub (usub 2 1) 1) 0)
        ((NewNeedleBytes [2, 2]).charTable (hayWrap2.getD 1 0))))).getD errorOffset =
      errorOffset
    rw [hayWrap2_getD_low (by norm_num [U32]),
      show usub (usub (2:Nat) 1) 1 = 0 from by decide,
      show (NewNeedleBytes [2, 2]).offsetTable.getD 0 0 = 2 from by decide,
      show (NewNeedleBytes [2, 2]).charTable 0 = 2 from by decide,
      show max 2 2 = 2 from by decide,
      show uadd 1 2 = 3 from by decide]
    rw [show (2:Nat) = 1 + 1 from rfl, indexOfLoopF_succ, if_neg (by omega)]
    rfl
  have hmod : hayWrap2.length % U32 = 2 := by
    rw [hayWrap2_len, show U32 = 4294967296 from rfl]
  simp only [IndexesOf]
  rw [hN2, if_neg (by omega), hmod, List.nil_append]
  rw [show (2:Nat) + 1 = 2 + 1 from rfl, indexesOfLoopF_succ, hIdx, if_pos rfl]

/-! ## The ten claims -/

/-- C1 (amended): for every non-empty pattern `P` and every in-memory
haystack `H` whose size stays in the `uint32` range
(`H.length + 2 * P.length ≤ 2^32`), the in-memory find-all `IndexesOf`
emits exactly the offsets `i` with `H[i : i+|P|] = P`, in ascending order,
including overlapping occurrences, each with a nil error and no error
result.  (The unamended claim, with no size bound, is refuted by
`spec_C1_counterexample`.) -/
theorem spec_C1 {H P : List Nat} (hP : P ≠ [])
    (hsize : H.length + 2 * P.length ≤ U32) :
    IndexesOf H P = (naiveMatches H P).map (fun p => ⟨p, none⟩) :=
  IndexesOf_eq_naiveMatches hP hsize

/-- C1 witness: the specification's own example, `H = "abcaaadeaaaaf"`,
`P = "aa"`, yields exactly the overlapping offsets 3, 4, 8, 9, 10. -/
theorem spec_C1_witness :
    IndexesOf [97, 98, 99, 97, 97, 97, 100, 101, 97, 97, 97, 97, 102] [97, 97] =
      [⟨3, none⟩, ⟨4, none⟩, ⟨8, none⟩, ⟨9, none⟩, ⟨10, none⟩] := by
  rw [@spec_C1 [97, 98, 99, 97, 97, 97, 100, 101, 97, 97, 97, 97, 102] [97, 97]
    (by decide) (by decide)]
  decide

/-- C1 counterexample: the non-empty pattern `[1,1]` occurs in the
`2^32 + 2`-byte haystack `hayWrap` (at offset `2^32`), yet `IndexesOf`
emits nothing: the `uint32` truncation of the haystack length makes the
unrestricted claim false. -/
theorem spec_C1_counterexample :
    [1, 1] ≠ ([] : List Nat) ∧ matchAtB hayWrap [1, 1] U32 = true ∧
      IndexesOf hayWrap [1, 1] = [] :=
  ⟨by decide, matchAt_hayWrap, indexesOf_hayWrap⟩

/-- C2 (refuted, code bug): streaming the 4097-byte haystack `hayCarry`
(4032 zeros then 65 ones) against the 64-byte needle of ones emits offsets
4032 then 4031, while the in-memory search over the same bytes emits 4032
then 4033: the off-by-two boundary carryover (`offset += used - len - 1`
instead of `offset += used - len + 1`) shifts and duplicates matches at the
window boundary, so streaming does not match in-memory search. -/
theorem spec_C2 :
    emittedResults (IndexesWithinReaderBytes ⟨hayCarry, 4097, []⟩ needleOnes) =
      [⟨4032, none⟩, ⟨4031, none⟩] ∧
    IndexesOf hayCarry needleOnes = [⟨4032, none⟩, ⟨4033, none⟩] ∧
    ([⟨4032, none⟩, ⟨4031, none⟩] : List GoResult) ≠
      [⟨4032, none⟩, ⟨4033, none⟩] := by
  refine ⟨?_, indexesOf_hayCarry, by decide⟩
  rw [streamCarry_trace]
  rfl

/-- C3 (refuted, code bug): on an empty pattern the streaming goroutine
emits the `ErrEmptyNeedle` result and closes, but — the Go code lacking a
`return` after `close(out)` — it then still calls `Read` and closes the
channel a second time (a Go runtime panic), instead of stopping after one
close without reading. -/
theorem spec_C3 :
    IndexesWithinReaderBytes ⟨[], 0, []⟩ [] =
      [Event.emit ⟨errorOffset, some .emptyNeedle⟩, Event.close,
       Event.readCall 0, Event.close] ∧
    closeCount (IndexesWithinReaderBytes ⟨[], 0, []⟩ []) = 2 ∧
    readCount (IndexesWithinReaderBytes ⟨[], 0, []⟩ []) = 1 ∧
    IndexesOf [7] [] = [⟨errorOffset, some .emptyNeedle⟩] := by
  exact ⟨streamEmpty_trace, by rw [streamEmpty_trace]; rfl,
    by rw [streamEmpty_trace]; rfl, indexesOf_emptyNeedle⟩

/-- C4 (confirmed): when the window is full (`used + cnt = buffSize`) and
the read did not hit EOF, the streaming loop scans the window (reporting
each match at `base + position`), then keeps exactly the last
`pattern.length - 1` window bytes, sets `used` to `pattern.length - 1`,
adds `used - pattern.length - 1` (with `used = buffSize` at that point) to
the base offset, and loops back to read more. -/
theorem spec_C4 {P : List Nat} {fuel : Nat} {r r' : GoReader}
    {window ck : List Nat} {used cnt offset : Nat}
    (hread : readChunk r (buffSize - used) = ⟨ck, cnt, r', false⟩)
    (hcnt : 0 < cnt) (hfull : used + cnt = buffSize)
    (hwlen : (window ++ ck).length = buffSize)
    (hL1 : 1 ≤ P.length) (hL2 : P.length < buffSize)
    (hoff : offset + buffSize < U32) :
    streamLoopF (NewNeedleBytes P) (fuel+1) r window used offset =
      Event.readCall cnt ::
        ((naiveMatchesFrom (window ++ ck) P 0).map
            (fun p => Event.emit ⟨offset + p, none⟩) ++
          streamLoopF (NewNeedleBytes P) fuel r'
            ((window ++ ck).drop ((window ++ ck).length - (P.length - 1)))
            (P.length - 1)
            (offset + (buffSize - P.length - 1))) :=
  carryover_step hread hcnt hfull hwlen hL1 hL2 hoff

/-- C4 witness: the carryover step on the concrete full-window read of
`hayCarry` against the 64-byte needle of ones. -/
theorem spec_C4_witness :
    streamLoopF (NewNeedleBytes (List.replicate 64 1)) (0+1)
        ⟨List.replicate 4032 0 ++ List.replicate 65 1, 4097, []⟩ [] 0 0 =
      Event.readCall 4096 ::
        ((naiveMatchesFrom ([] ++ (List.replicate 4032 0 ++ List.replicate 64 1))
            (List.replicate 64 1) 0).map
            (fun p => Event.emit ⟨0 + p, none⟩) ++
          streamLoopF (NewNeedleBytes (List.replicate 64 1)) 0 ⟨[1], 1, []⟩
            (([] ++ (List.replicate 4032 0 ++ List.replicate 64 1)).drop
              (([] ++ (List.replicate 4032 0 ++ List.replicate 64 1)).length -
                ((List.replicate 64 (1:Nat)).length - 1)))
            ((List.replicate 64 (1:Nat)).length - 1)
            (0 + (buffSize - (List.replicate 64 (1:Nat)).length - 1))) :=
  spec_C4 readChunk_carry1 (by decide) (by decide)
    (by rw [List.nil_append, List.length_append, List.length_replicate,
          List.length_replicate]
        rfl)
    (by rw [List.length_replicate]; omega)
    (by rw [List.length_replicate]; decide)
    (by decide)

/-- C5 (refuted, code bug): with the 4097-byte needle `needleLong` (one
byte longer than the 4096-byte window) the streaming search reports no
configuration error: it reads a full window, scans fruitlessly, wraps the
carryover arithmetic, issues a zero-byte read and then emits the garbage
result `Result{errorOffset, nil}` and closes — a silent failure, not a
distinguished construction-time error. -/
theorem spec_C5 :
    needleLong.length = buffSize + 1 ∧
    IndexesWithinReaderBytes ⟨needleLong, 4097, []⟩ needleLong =
      [Event.readCall 4096, Event.readCall 0,
       Event.emit ⟨errorOffset, none⟩, Event.close] := by
  refine ⟨?_, streamLong_trace⟩
  rw [show needleLong = 2 :: (List.replicate 4095 1 ++ [3]) from rfl,
    List.length_cons, List.length_append, List.length_replicate,
    List.length_singleton]
  rfl

/-- C6 (refuted, code bug): the streaming run on `hayCarry` with the
64-byte needle of ones emits offset 4032 and then offset 4031 — the
successful results are not strictly increasing in reported offset. -/
theorem spec_C6 :
    ¬ List.Chain' (fun a b : GoResult => a.Offset < b.Offset)
      (emittedResults (IndexesWithinReaderBytes ⟨hayCarry, 4097, []⟩ needleOnes)) := by
  rw [streamCarry_trace]
  rw [show emittedResults [Event.readCall 4096, Event.emit ⟨4032, none⟩,
      Event.readCall 1, Event.readCall 0, Event.emit ⟨4031, none⟩, Event.close] =
      [⟨4032, none⟩, ⟨4031, none⟩] from rfl]
  intro hch
  rw [List.chain'_cons] at hch
  exact absurd hch.1 (by decide)

/-- C7 (confirmed): for a non-empty pattern (of `uint32`-sized length),
the good-suffix table built by `makeOffsetTable` equals the two-pass
description: pass 1 writes `table[L-1-p] = lastPrefixPosition - p + L - 1`
with `lastPrefixPosition` the least prefix-suffix position above `p`, and
pass 2 overwrites `table[suffixLength(p)] = L-1-p+suffixLength(p)` for
each `p ≤ L-2`, later `p` winning. -/
theorem spec_C7 {needle : List Nat} (h1 : needle ≠ [])
    (hsmall : 2 * needle.length ≤ U32) :
    makeOffsetTable needle = claimOffsetTable needle :=
  makeOffsetTable_eq_claim (List.length_pos.mpr h1) hsmall

/-- C7 witness: on the pattern `[1,0,1,1,1,2]` both sides evaluate to
`[1, 7, 8, 9, 10, 11]`. -/
theorem spec_C7_witness :
    makeOffsetTable [1, 0, 1, 1, 1, 2] = claimOffsetTable [1, 0, 1, 1, 1, 2] ∧
      makeOffsetTable [1, 0, 1, 1, 1, 2] = [1, 7, 8, 9, 10, 11] :=
  ⟨@spec_C7 [1, 0, 1, 1, 1, 2] (by decide) (by decide), by decide⟩

/-- C8 (confirmed): for a pattern of `uint32`-sized length, the
bad-character table maps every byte to the pattern length by default and
maps each byte occurring before the final position to the distance from
its rightmost such occurrence to the pattern's end (later positions
overwrite earlier ones). -/
theorem spec_C8 {needle : List Nat} (hL : needle.length < U32) (c : Nat) :
    makeCharTable needle c = claimCharTable needle c :=
  makeCharTable_eq hL c

/-- C8 witness: on the pattern `[1,0,1,1,1,2]` the entry for byte 1 is 1
(its rightmost non-final occurrence is at position 4, and `6-1-4 = 1`). -/
theorem spec_C8_witness :
    makeCharTable [1, 0, 1, 1, 1, 2] 1 = claimCharTable [1, 0, 1, 1, 1, 2] 1 ∧
      makeCharTable [1, 0, 1, 1, 1, 2] 1 = 1 :=
  ⟨@spec_C8 [1, 0, 1, 1, 1, 2] (by decide) 1, by decide⟩

/-- C9 counterexample: every shift of the needle `[1,0,1,1,1,2]` is at
least 1 (the claim's premise holds), yet on the `2^32 - 1`-byte zero
haystack the scan position only ever wraps through residues `1 mod 4`
while the only exit index is `2^32 - 1 ≡ 3 mod 4`: `indexOfHelper` never
terminates, refuting the claimed termination. -/
theorem spec_C9_counterexample :
    (∀ k c, 1 ≤ max ((NewNeedleBytes needleLoop).offsetTable.getD k 0)
        ((NewNeedleBytes needleLoop).charTable c)) ∧
      ¬ indexOfTerminates hayHuge (NewNeedleBytes needleLoop) (U32 - 1) 0 := by
  constructor
  · intro k c
    exact le_trans (@makeCharTable_pos needleLoop (by decide) (by decide) c)
      (le_max_right _ _)
  · exact indexOf_hayHuge_diverges

/-- C9 (amended): every shift the matcher applies is at least 1 (every
bad-character entry is positive, so the max is); and `indexOfHelper`
terminates provided the sizes stay in the `uint32` range
(`H.length + 2 * P.length ≤ 2^32`), which excludes the wrap-around orbits
of `spec_C9_counterexample`. -/
theorem spec_C9 {H P : List Nat} {skip : Nat} (hP : 1 ≤ P.length)
    (hPU : P.length < U32) (hsize : H.length + 2 * P.length ≤ U32)
    (hskip : skip ≤ H.length) :
    (∀ k c, 1 ≤ max ((NewNeedleBytes P).offsetTable.getD k 0)
        ((NewNeedleBytes P).charTable c)) ∧
      indexOfTerminates H (NewNeedleBytes P) H.length skip :=
  ⟨fun k c => le_trans (makeCharTable_pos hP hPU c) (le_max_right _ _),
   indexOfTerminates_of_size hP hsize hskip⟩

/-- C9 witness: shifts for the needle `[6]` are positive and the scan of
`[5,6,7]` terminates. -/
theorem spec_C9_witness :
    (∀ k c, 1 ≤ max ((NewNeedleBytes [6]).offsetTable.getD k 0)
        ((NewNeedleBytes [6]).charTable c)) ∧
      indexOfTerminates [5, 6, 7] (NewNeedleBytes [6]) ([5, 6, 7].length) 0 :=
  @spec_C9 [5, 6, 7] [6] 0 (by decide) (by decide) (by decide) (by decide)

/-- C10 counterexample: the pattern `[2,2]` occurs in the
`2^32 + 2`-byte haystack `hayWrap2` at offset `2^32`, but the in-memory
search reports nothing at all: reported offsets do not wrap modulo
`2^32` — the `uint32` truncation of the haystack length loses the match
entirely. -/
theorem spec_C10_counterexample :
    matchAtB hayWrap2 [2, 2] U32 = true ∧ IndexesOf hayWrap2 [2, 2] = [] :=
  ⟨matchAt_hayWrap2, indexesOf_hayWrap2⟩

/-- C10 (amended): offsets live in `uint32` (`uadd` reduces modulo
`2^32`); `2^32 - 1` is the in-band not-found/error sentinel; and a real
streaming run can emit `Result{2^32 - 1, nil}` on the channel — carrying
the sentinel as its offset with a nil error, indistinguishable by offset
from the not-found outcome. -/
theorem spec_C10 :
    errorOffset = U32 - 1 ∧
    Event.emit ⟨errorOffset, none⟩ ∈
      IndexesWithinReaderBytes ⟨needleLong, 4097, []⟩ needleLong ∧
    (∀ a b : Nat, uadd a b = (a + b) % U32) := by
  refine ⟨rfl, ?_, fun a b => rfl⟩
  rw [streamLong_trace]
  decide

end Substr
